import Mathlib

/-
Verification of the dependency-graph tool (main.py): a shallow embedding of
the dependency-expression parser, the Packages metadata parser, the
transitive dependency-graph builder and the load-order planner, together
with theorems settling the frozen claims about them.

Modelling conventions:
- Python strings are Lean String values; string manipulation is carried out
  on the underlying character lists so that every definition reduces inside
  the kernel.  Lowercasing is ASCII Char.toLower.
- Python sets are modelled as insertion-ordered duplicate-free lists
  (insertOnce appends a missing element at the end); Python dicts are
  modelled as insertion-ordered association lists, or as update functions
  when the dict is only ever read pointwise.
- Code that can raise is modelled with Option / Except: an IndexError in
  the dependency-line parser is Option.none, PackageNotFoundError is
  Except.error.
- Loops of the source whose termination is not structural (the regex scans,
  the depth-first graph expansion, the Kahn work-queue loop) are embedded
  with an explicit fuel argument so that they remain structurally recursive
  and computable by the kernel.  The fuel passed by the top-level entry
  points dominates the real iteration count: the regex scans consume at
  least one character per step (fuel = input length); the graph expansion
  inserts a fresh name into the visited set before every nested call, so
  its depth is bounded by the number of names mentioned in the catalog;
  the Kahn loop pops one queue element per step and the total number of
  queue insertions is bounded by twice the number of graph nodes (each
  node is seeded at most once and its remaining count crosses zero at
  most once).
-/

/-! ## Basic Python-style string and set utilities -/

/-- Insertion into an insertion-ordered model of a Python set:
append at the end when missing, keep the list unchanged when present. -/
def insertOnce (x : String) (l : List String) : List String :=
  if x ∈ l then l else l ++ [x]

/-- Union of two Python sets in the insertion-ordered model: keep the left
operand, then append the missing members of the right one in order. -/
def unionList (a b : List String) : List String :=
  b.foldl (fun acc d => insertOnce d acc) a

/-- Python str.strip(): drop whitespace from both ends. -/
def pyStrip (s : String) : String :=
  String.mk (((s.data.dropWhile Char.isWhitespace).reverse.dropWhile
    Char.isWhitespace).reverse)

/-- ASCII lowercasing of a string, modelling Python str.lower(). -/
def pyLower (s : String) : String :=
  String.mk (s.data.map Char.toLower)

/-- Splitting on an exact separator, modelling Python str.split(sep) for a
non-empty sep.  The fuel dominates the scan length (at least one character
is consumed per step), so the zero-fuel branch is never reached when the
fuel starts at the length of the input. -/
def splitSepAux (sep : List Char) : Nat → List Char → List Char → List (List Char)
  | _, [], cur => [cur.reverse]
  | 0, rest, cur => [cur.reverse ++ rest]
  | fuel + 1, c :: rest, cur =>
    if sep.isPrefixOf (c :: rest) then
      cur.reverse :: splitSepAux sep fuel ((c :: rest).drop sep.length) []
    else
      splitSepAux sep fuel rest (c :: cur)

/-- Python s.split(sep) for a non-empty separator. -/
def pySplit (s : String) (sep : String) : List String :=
  (splitSepAux sep.data s.data.length s.data []).map String.mk

/-- Accumulator loop for Python str.split() with no separator:
split on whitespace runs, dropping empty tokens. -/
def wsTokensAux : List Char → List Char → List (List Char)
  | [], cur => if cur.isEmpty then [] else [cur.reverse]
  | c :: rest, cur =>
    if c.isWhitespace then
      if cur.isEmpty then wsTokensAux rest []
      else cur.reverse :: wsTokensAux rest []
    else wsTokensAux rest (c :: cur)

/-- Python str.split() with no separator. -/
def wsTokens (l : List Char) : List (List Char) :=
  wsTokensAux l []

/-- Membership of a character list as a contiguous run of another,
modelling the Python substring test. -/
def containsSub (needle : List Char) : List Char → Bool
  | [] => needle.isEmpty
  | c :: rest => needle.isPrefixOf (c :: rest) || containsSub needle rest

/-! ## Dependency Expression Parser (_parse_dependencies_line) -/

/-- Word character of the regex class used by the architecture-qualifier
pattern (ASCII reading). -/
def isWordChar (c : Char) : Bool :=
  c.isAlphanum || c == '_'

/-- Head of a character list is a word character. -/
def headIsWord : List Char → Bool
  | [] => false
  | c :: _ => isWordChar c

/-- Scan of re.sub applied to the architecture-qualifier pattern
(colon, one or more word characters, then optional whitespace), replacing
each leftmost match with a single space.  Every step consumes at least one
character, so fuel = input length suffices. -/
def stripArchAux : Nat → List Char → List Char
  | _, [] => []
  | 0, rest => rest
  | fuel + 1, c :: rest =>
    if c == ':' && headIsWord rest then
      ' ' :: stripArchAux fuel ((rest.dropWhile isWordChar).dropWhile Char.isWhitespace)
    else
      c :: stripArchAux fuel rest

/-- re.sub of the architecture-qualifier pattern with a single space. -/
def stripArch (l : List Char) : List Char :=
  stripArchAux l.length l

/-- Match of the version-constraint pattern (optional whitespace, an open
parenthesis, one or more characters other than a close parenthesis, a
close parenthesis, then optional whitespace) at the start of a character
list; returns the remainder after the match when it succeeds. -/
def verMatch (l : List Char) : Option (List Char) :=
  match l.dropWhile Char.isWhitespace with
  | c :: t =>
    if c == '(' then
      -- the head of the second component below is necessarily the close
      -- parenthesis that the dropWhile stopped at
      match t.takeWhile (fun x => x != ')'), t.dropWhile (fun x => x != ')') with
      | _ :: _, _ :: r => some (r.dropWhile Char.isWhitespace)
      | _, _ => none
    else none
  | [] => none

/-- Scan of re.sub applied to the version-constraint pattern, deleting
every leftmost match while scanning left to right.  A successful match
consumes at least one character, so fuel = input length suffices. -/
def stripVerAux : Nat → List Char → List Char
  | _, [] => []
  | 0, rest => rest
  | fuel + 1, c :: rest =>
    match verMatch (c :: rest) with
    | some r => stripVerAux fuel r
    | none => c :: stripVerAux fuel rest

/-- re.sub of the version-constraint pattern with the empty string. -/
def stripVer (l : List Char) : List Char :=
  stripVerAux l.length l

/-- Alternatives loop of _parse_dependencies_line: strip the version
constraint from each alternative, take its first whitespace token as the
package name, and add it to the accumulated set.  An alternative with no
token makes the original index expression raise IndexError, modelled as
none. -/
def parseAlts : List String → List String → Option (List String)
  | [], acc => some acc
  | alt :: rest, acc =>
    match wsTokens (stripVer alt.data) with
    | [] => none
    | tok :: _ =>
      let name := pyStrip (String.mk tok)
      if name = "" then parseAlts rest acc
      else parseAlts rest (insertOnce name acc)

/-- Comma-item loop of _parse_dependencies_line: skip empty items, split
each item on the bar character into alternatives. -/
def parseItems : List String → List String → Option (List String)
  | [], acc => some acc
  | item :: rest, acc =>
    if item = "" then parseItems rest acc
    else
      match parseAlts ((pySplit item "|").map pyStrip) acc with
      | none => none
      | some acc2 => parseItems rest acc2

/-- Embedding of _parse_dependencies_line.  Returns the set of extracted
package names in insertion order, or none when the source code would raise
IndexError (an alternative with no extractable token). -/
def parseDependenciesLine (depsLine : String) : Option (List String) :=
  if depsLine = "" then some []
  else
    let stripped := String.mk (stripArch depsLine.data)
    parseItems ((pySplit stripped ",").map pyStrip) []

/-! ## Metadata Parser (PackageParser._parse_packages) -/

/-- Record stored per package: the Depends set and the Pre-Depends set. -/
structure PackageRecord where
  dependencies : List String
  preDependencies : List String
deriving DecidableEq

/-- The catalog: an insertion-ordered association list modelling the
packages dict. -/
abbrev Packages := List (String × PackageRecord)

/-- Lookup of a package record by name. -/
def lookupRecord (pkgs : Packages) (name : String) : Option PackageRecord :=
  List.lookup name pkgs

/-- Union new dependency names into the Depends set of the named record. -/
def updateRecordDeps (pkgs : Packages) (name : String) (newDeps : List String) :
    Packages :=
  pkgs.map (fun e =>
    if e.1 = name then (e.1, ⟨unionList e.2.dependencies newDeps, e.2.preDependencies⟩)
    else e)

/-- Union new dependency names into the Pre-Depends set of the named record. -/
def updateRecordPre (pkgs : Packages) (name : String) (newDeps : List String) :
    Packages :=
  pkgs.map (fun e =>
    if e.1 = name then (e.1, ⟨e.2.dependencies, unionList e.2.preDependencies newDeps⟩)
    else e)

/-- Per-block parser state: the accumulated catalog, the current package
name (the empty string models Python None and the falsy empty value), the
current field name (empty models None) and the current field value. -/
structure BlockState where
  pkgs : Packages
  packageName : String
  currentField : String
  currentValue : Option String
deriving DecidableEq

/-- Truthiness of the current value: present and non-empty. -/
def truthyVal : Option String → Bool
  | none => false
  | some s => s ≠ ""

/-- Saving of the previous field (the body shared by the in-block save and
the end-of-block save of _parse_packages).  Parsing a dependency line can
raise, hence the Option result. -/
def flushField (st : BlockState) : Option BlockState :=
  if st.currentField = "Package:" ∧ truthyVal st.currentValue then
    let pn := pyStrip (st.currentValue.getD "")
    let pkgs :=
      if pn ≠ "" ∧ (lookupRecord st.pkgs pn).isNone then
        st.pkgs ++ [(pn, ⟨[], []⟩)]
      else st.pkgs
    some { st with pkgs := pkgs, packageName := pn }
  else if st.currentField = "Depends:" ∧ truthyVal st.currentValue ∧
      st.packageName ≠ "" then
    match parseDependenciesLine (pyStrip (st.currentValue.getD "")) with
    | none => none
    | some deps => some { st with pkgs := updateRecordDeps st.pkgs st.packageName deps }
  else if st.currentField = "Pre-Depends:" ∧ truthyVal st.currentValue ∧
      st.packageName ≠ "" then
    match parseDependenciesLine (pyStrip (st.currentValue.getD "")) with
    | none => none
    | some deps => some { st with pkgs := updateRecordPre st.pkgs st.packageName deps }
  else some st

/-- A line is a continuation line when it starts with a space or a tab. -/
def isContinuation (line : String) : Bool :=
  match line.data with
  | [] => false
  | c :: _ => c == ' ' || c == '\t'

/-- Split of a field line at the first colon, modelling split(colon, 1):
the field name part and the remainder after the first colon. -/
def splitFirstColon (l : List Char) : List Char × List Char :=
  (l.takeWhile (fun c => c != ':'), (l.dropWhile (fun c => c != ':')).drop 1)

/-- One line of the block loop of _parse_packages. -/
def processLine (st : BlockState) (line : String) : Option BlockState :=
  if isContinuation line then
    if st.currentField ≠ "" ∧ st.currentValue.isSome then
      some { st with
        currentValue := some ((st.currentValue.getD "") ++ " " ++ pyStrip line) }
    else some st
  else if line.data.contains ':' then
    match flushField st with
    | none => none
    | some st1 =>
      let parts := splitFirstColon line.data
      some { st1 with
        currentField := String.mk parts.1 ++ ":",
        currentValue := some (pyStrip (String.mk parts.2)) }
  else some st

/-- One metadata block: the line loop followed by the end-of-block save. -/
def processBlock (pkgs : Packages) (block : String) : Option Packages :=
  match (pySplit block "\n").foldlM processLine ⟨pkgs, "", "", none⟩ with
  | none => none
  | some stN =>
    match flushField stN with
    | none => none
    | some stF => some stF.pkgs

/-- Embedding of _parse_packages: blocks are separated by a blank line;
blank blocks are skipped. -/
def parsePackages (content : String) : Option Packages :=
  (pySplit content "\n\n").foldlM
    (fun pkgs block => if pyStrip block = "" then some pkgs else processBlock pkgs block)
    []

/-! ## Catalog operations (get_package_dependencies, package_exists) -/

/-- The error raised by the catalog lookup. -/
inductive PkgError where
  | packageNotFound (name : String)
deriving DecidableEq

/-- Embedding of get_package_dependencies: the union of the Depends and
Pre-Depends sets, or PackageNotFoundError for an absent name. -/
def getPackageDependencies (pkgs : Packages) (name : String) :
    Except PkgError (List String) :=
  match lookupRecord pkgs name with
  | none => Except.error (PkgError.packageNotFound name)
  | some r => Except.ok (unionList r.dependencies r.preDependencies)

/-- Embedding of package_exists. -/
def packageExists (pkgs : Packages) (name : String) : Bool :=
  (lookupRecord pkgs name).isSome

/-- The first catalog refines into the second without losing records:
every record keeps its key and its dependency sets only grow. -/
def RecordsGrow (pkgs pkgs2 : Packages) : Prop :=
  ∀ n r, lookupRecord pkgs n = some r →
    ∃ r2, lookupRecord pkgs2 n = some r2 ∧
      (∀ d ∈ r.dependencies, d ∈ r2.dependencies) ∧
      (∀ d ∈ r.preDependencies, d ∈ r2.preDependencies)

/-! ## Graph Builder (DependencyGraph) -/

/-- The dependency graph: an insertion-ordered association list from
package name to its dependency set. -/
abbrev DepGraph := List (String × List String)

/-- The keys of a graph. -/
def keysG (g : DepGraph) : List String :=
  g.map Prod.fst

/-- The dependency set recorded for a package (empty when absent). -/
def depsOfG (g : DepGraph) (p : String) : List String :=
  (List.lookup p g).getD []

/-- Embedding of _should_filter_package, composed with the lowering of the
filter substring done by the constructor: a name is filtered out iff the
filter is non-empty and occurs case-insensitively inside the name. -/
def shouldFilterPackage (filterSub : String) (name : String) : Bool :=
  if pyLower filterSub = "" then false
  else containsSub (pyLower filterSub).data (pyLower name).data

/-- The builder state mutated during one build call: the output graph, the
global visited set, and the accumulated cycle list. -/
structure BuildState where
  graph : DepGraph
  visited : List String
  cycles : List (List String)
deriving DecidableEq

/-- Creation of the graph entry of a package when it is absent. -/
def graphAddKey (g : DepGraph) (p : String) : DepGraph :=
  if (List.lookup p g).isSome then g else g ++ [(p, [])]

/-- Set-update of the dependency entry of a package. -/
def graphUpdate (g : DepGraph) (p : String) (deps : List String) : DepGraph :=
  g.map (fun e => if e.1 = p then (e.1, unionList e.2 deps) else e)

/-- The cycle branch of _bfs_with_recursion: slice the path from the first
occurrence of the package, close the loop with the package itself,
normalise (a no-op on a closed slice, embedded faithfully anyway) and
record the sequence unless an identical one is already recorded. -/
def recordCycle (path : List String) (package : String) (st : BuildState) :
    BuildState :=
  let cyc0 := path.drop (path.indexOf package) ++ [package]
  let cyc :=
    if cyc0.length > 1 && (cyc0.headD "" == cyc0.getLastD "") then
      cyc0.dropLast ++ [cyc0.headD ""]
    else cyc0
  if cyc ≠ [] ∧ cyc ∉ st.cycles then { st with cycles := st.cycles ++ [cyc] }
  else st

/-- Embedding of _bfs_with_recursion.  The path is the insertion-ordered
model of the current-path set; the fuel dominates the recursion depth
(every nested call is made on a dependency freshly inserted into the
visited set, and dependencies all come from the catalog). -/
def bfsRec (pkgs : Packages) (filterSub : String) :
    Nat → String → List String → BuildState → BuildState
  | 0, _, _, st => st
  | fuel + 1, package, path, st =>
    if package ∈ path then
      recordCycle path package st
    else if shouldFilterPackage filterSub package then st
    else
      let newPath := insertOnce package path
      match getPackageDependencies pkgs package with
      | Except.error _ => st
      | Except.ok directDeps =>
        let filteredDeps := directDeps.filter (fun d => !shouldFilterPackage filterSub d)
        let g2 := graphUpdate (graphAddKey st.graph package) package filteredDeps
        filteredDeps.foldl
          (fun s d =>
            if d ∈ s.visited then s
            else bfsRec pkgs filterSub fuel d newPath { s with visited := insertOnce d s.visited })
          { st with graph := g2 }

/-- Every name mentioned anywhere in the catalog (keys and both
dependency sets). -/
def namesMentioned (pkgs : Packages) : List String :=
  pkgs.foldr (fun e acc => e.1 :: (e.2.dependencies ++ e.2.preDependencies ++ acc)) []

/-- Fuel dominating the depth of the build recursion (see bfsRec). -/
def buildFuel (pkgs : Packages) : Nat :=
  (namesMentioned pkgs).length + 2

/-- Embedding of build_graph_bfs: reset the state, and expand from the
root unless the root itself is filtered out. -/
def buildGraphBFS (pkgs : Packages) (filterSub : String) (root : String) : BuildState :=
  if shouldFilterPackage filterSub root then ⟨[], [], []⟩
  else bfsRec pkgs filterSub (buildFuel pkgs) root [] ⟨[(root, [])], [], []⟩

/-- Embedding of get_all_packages: the keys of the graph together with
every member of every dependency set. -/
def getAllPackages (g : DepGraph) : List String :=
  g.foldl (fun acc e => unionList acc e.2)
    (g.foldl (fun acc e => insertOnce e.1 acc) [])

/-- The statistics record of get_statistics. -/
structure GraphStats where
  totalPackages : Nat
  totalEdges : Nat
  cyclesFound : Nat
  cycles : List (List String)
deriving DecidableEq

/-- Embedding of get_statistics. -/
def getStatistics (st : BuildState) : GraphStats :=
  ⟨(getAllPackages st.graph).length,
   st.graph.foldl (fun n e => n + e.2.length) 0,
   st.cycles.length,
   st.cycles⟩

/-! ## Load Order Planner (get_load_order) -/

/-- One dependency edge of the pre-Kahn pass: record that e.1 depends on
dep in the reverse graph and bump the remaining count of e.1. -/
def revDegStep (e : String × List String)
    (rd : (String → List String) × (String → Int)) (dep : String) :
    (String → List String) × (String → Int) :=
  (fun x => if x = dep then insertOnce e.1 (rd.1 x) else rd.1 x,
   fun x => if x = e.1 then rd.2 x + 1 else rd.2 x)

/-- One graph item of the pre-Kahn pass. -/
def revDegEntry (rd : (String → List String) × (String → Int))
    (e : String × List String) :
    (String → List String) × (String → Int) :=
  e.2.foldl (revDegStep e) rd

/-- The two dictionaries built before the Kahn loop, as update functions:
the reverse graph (who depends on a given package) and the remaining
dependency count of every package.  Both are filled by one pass over the
graph items, exactly as in the source. -/
def revDegInit (g : DepGraph) : (String → List String) × (String → Int) :=
  g.foldl revDegEntry (fun _ => [], fun _ => 0)

/-- The initial work queue: the nodes with remaining count zero, in
node-set iteration order. -/
def seedOf (g : DepGraph) : List String :=
  (getAllPackages g).filter (fun p => (revDegInit g).2 p == 0)

/-- The inner loop of the Kahn iteration: decrement the remaining count of
every not-yet-processed dependant of the current node and collect the
dependants whose count reaches zero, in order. -/
def kahnFold (processed : List String) :
    List String → (String → Int) → List String → (String → Int) × List String
  | [], deg, acc => (deg, acc)
  | d :: ds, deg, acc =>
    if d ∈ processed then kahnFold processed ds deg acc
    else
      let deg2 := fun x => if x = d then deg x - 1 else deg x
      if deg2 d == 0 then kahnFold processed ds deg2 (acc ++ [d])
      else kahnFold processed ds deg2 acc

/-- The Kahn work-queue loop.  One queue element is popped per step; the
fuel passed by getLoadOrder dominates the total number of queue
insertions, so the zero-fuel branch is never reached. -/
def kahnLoop (revG : String → List String) :
    Nat → List String → List String → List String → (String → Int) →
    List String × List String × (String → Int)
  | 0, _, result, processed, deg => (result, processed, deg)
  | _ + 1, [], result, processed, deg => (result, processed, deg)
  | fuel + 1, c :: q, result, processed, deg =>
    if c ∈ processed then kahnLoop revG fuel q result processed deg
    else
      let processed2 := insertOnce c processed
      let fd := kahnFold processed2 (revG c) deg []
      kahnLoop revG fuel (q ++ fd.2) (result ++ [c]) processed2 fd.1

/-- Embedding of get_load_order: empty for a root that is not a graph key;
otherwise Kahn over the reverse graph followed by the forced move of the
root to the last position. -/
def getLoadOrder (g : DepGraph) (root : String) : List String :=
  if root ∈ keysG g then
    let rd := revDegInit g
    let res := (kahnLoop rd.1 (2 * (getAllPackages g).length + 1) (seedOf g) [] [] rd.2).1
    if root ∈ res then res.erase root ++ [root] else res ++ [root]
  else []

/-- Lexicographic comparison of character lists by code point, modelling
the ordering used by Python sorted() on strings. -/
def charListLE : List Char → List Char → Bool
  | [], _ => true
  | _ :: _, [] => false
  | c :: cs, d :: ds => if c = d then charListLE cs ds else decide (c < d)

/-- Insertion into a sorted list. -/
def insertSorted (x : String) : List String → List String
  | [] => [x]
  | y :: ys => if charListLE x.data y.data then x :: y :: ys else y :: insertSorted x ys

/-- Insertion sort of strings by code point. -/
def sortStrings (l : List String) : List String :=
  l.foldr insertSorted []

/-- Modelled from the spec: the load-order computation whose work queue is
seeded with the zero-remaining-count nodes in a lexicographically sorted
order (spec 4.4 step 3), kept alongside getLoadOrder of the source for
comparison. -/
def getLoadOrderSortedSeed (g : DepGraph) (root : String) : List String :=
  if root ∈ keysG g then
    let rd := revDegInit g
    let res := (kahnLoop rd.1 (2 * (getAllPackages g).length + 1)
      (sortStrings (seedOf g)) [] [] rd.2).1
    if root ∈ res then res.erase root ++ [root] else res ++ [root]
  else []

/-! ## Reachability along graph edges (used to analyse built graphs) -/

/-- Reachability from a along the recorded dependency edges of a graph. -/
inductive ReachG (g : DepGraph) (a : String) : String → Prop
  | refl : ReachG g a a
  | step {b c : String} : ReachG g a b → c ∈ depsOfG g b → ReachG g a c

/-! ## Utility lemmas -/

theorem mem_insertOnce {a x : String} {l : List String} :
    a ∈ insertOnce x l ↔ a = x ∨ a ∈ l := by
  unfold insertOnce
  split
  · constructor
    · exact fun h => Or.inr h
    · rintro (rfl | h) <;> assumption
  · simp [or_comm]

theorem insertOnce_nodup {x : String} {l : List String} (h : l.Nodup) :
    (insertOnce x l).Nodup := by
  unfold insertOnce
  split
  · exact h
  next hx => simpa [List.nodup_append] using ⟨h, hx⟩

theorem insertOnce_of_not_mem {x : String} {l : List String} (h : x ∉ l) :
    insertOnce x l = l ++ [x] := by
  simp [insertOnce, h]

theorem self_mem_insertOnce {x : String} {l : List String} : x ∈ insertOnce x l := by
  rw [mem_insertOnce]; exact Or.inl rfl

theorem mem_of_mem_insertOnce_base {a x : String} {l : List String} (h : a ∈ l) :
    a ∈ insertOnce x l :=
  mem_insertOnce.mpr (Or.inr h)

theorem mem_unionList {a : String} {l r : List String} :
    a ∈ unionList l r ↔ a ∈ l ∨ a ∈ r := by
  induction r generalizing l with
  | nil => simp [unionList]
  | cons x xs ih =>
    show a ∈ unionList (insertOnce x l) xs ↔ _
    rw [ih, mem_insertOnce]
    simp only [List.mem_cons]
    tauto

theorem lookupRecord_nil (name : String) : lookupRecord [] name = none := rfl

/-! ## One-step behavior of the graph expansion on an absent package -/

/-- A package absent from the catalog is absorbed by the expansion: the
PackageNotFoundError branch returns without touching the state, so the
package is treated as a leaf with no recorded outgoing edges. -/
theorem bfsRec_absorb (pkgs : Packages) (fs : String) (fuel : Nat)
    (package : String) (path : List String) (st : BuildState)
    (hlook : lookupRecord pkgs package = none)
    (hfilt : shouldFilterPackage fs package = false)
    (hpath : package ∉ path) :
    bfsRec pkgs fs (fuel + 1) package path st = st := by
  simp only [bfsRec]
  rw [if_neg hpath, if_neg (by simp [hfilt])]
  simp [getPackageDependencies, hlook]

/-! ## Claim C1 -/

/-- C1: refuted on the code as written; the claim matches the stated
contract of the spec, so the code is the slip.  The dependency-expression
parser indexes the first whitespace token of an alternative before
checking that one exists, so an alternative that yields no token (here the
empty alternatives of the single item of the line consisting of one bar
character) raises IndexError instead of being silently skipped.  The
embedded parser returns none exactly at that index expression. -/
theorem C1_dependency_line_raises : parseDependenciesLine "|" = none := by decide

/-! ## Claim C6 -/

/-- C6: for a name absent from the catalog, the direct lookup raises
PackageNotFoundError, while the graph expansion reaching that name absorbs
the error and leaves the build state untouched (the name stays a leaf with
no recorded outgoing edges), for every filter, fuel, path and state. -/
theorem C6_not_found_raised_and_absorbed (pkgs : Packages) (name : String)
    (hlook : lookupRecord pkgs name = none) :
    getPackageDependencies pkgs name = Except.error (PkgError.packageNotFound name) ∧
    ∀ fs fuel path st, shouldFilterPackage fs name = false → name ∉ path →
      bfsRec pkgs fs (fuel + 1) name path st = st := by
  refine ⟨by simp [getPackageDependencies, hlook], ?_⟩
  intro fs fuel path st hf hp
  exact bfsRec_absorb pkgs fs fuel name path st hlook hf hp

theorem C6_not_found_witness :
    getPackageDependencies [] "ghost" =
      Except.error (PkgError.packageNotFound "ghost") ∧
    bfsRec [] "" 1 "ghost" [] ⟨[], [], []⟩ = ⟨[], [], []⟩ := by
  refine ⟨(C6_not_found_raised_and_absorbed [] "ghost" rfl).1, ?_⟩
  exact (C6_not_found_raised_and_absorbed [] "ghost" rfl).2 "" 0 [] ⟨[], [], []⟩
    (by decide) (by simp)

/-! ## Claim C9 -/

/-- C9: building from a root that is absent from the catalog (and not
filtered) does not fail: the lookup error is absorbed and the result is
exactly the one-entry graph mapping the root to the empty set, with an
empty cycle list. -/
theorem C9_missing_root_leaf (pkgs : Packages) (fs root : String)
    (hlook : lookupRecord pkgs root = none)
    (hfilt : shouldFilterPackage fs root = false) :
    (buildGraphBFS pkgs fs root).graph = [(root, [])] ∧
    (buildGraphBFS pkgs fs root).cycles = [] := by
  have h : buildGraphBFS pkgs fs root = ⟨[(root, [])], [], []⟩ := by
    unfold buildGraphBFS
    rw [if_neg (by simp [hfilt])]
    have hb : buildFuel pkgs = ((namesMentioned pkgs).length + 1) + 1 := rfl
    rw [hb, bfsRec_absorb pkgs fs _ root [] _ hlook hfilt (List.not_mem_nil _)]
  rw [h]
  exact ⟨rfl, rfl⟩

theorem C9_missing_root_witness :
    (buildGraphBFS [] "" "zzz").graph = [("zzz", [])] ∧
    (buildGraphBFS [] "" "zzz").cycles = [] :=
  C9_missing_root_leaf [] "" "zzz" rfl (by decide)

/-! ## Claim C7 -/

/-- C7: counterexample to the claim as stated.  Building from catalog
{A: {B}} (B absent from the catalog) yields the graph {A: {B}}; B is a
node of the graph (a member of get_all_packages), yet get_load_order(B)
returns the empty sequence, because the code tests membership among the
graph keys only, not among all nodes. -/
theorem C7_counterexample :
    "B" ∈ getAllPackages (buildGraphBFS [("A", ⟨["B"], []⟩)] "" "A").graph ∧
    getLoadOrder (buildGraphBFS [("A", ⟨["B"], []⟩)] "" "A").graph "B" = [] := by
  decide

/-- C7 as amended: get_load_order returns the empty sequence iff the root
is not a key of the graph; when the root is a key the result is non-empty
and the root occupies its last position. -/
theorem C7_amended (g : DepGraph) (root : String) :
    (root ∉ keysG g → getLoadOrder g root = []) ∧
    (root ∈ keysG g →
      getLoadOrder g root ≠ [] ∧ (getLoadOrder g root).getLast? = some root) := by
  constructor
  · intro h
    simp [getLoadOrder, h]
  · intro h
    have key : ∀ l : List String,
        (if root ∈ l then l.erase root ++ [root] else l ++ [root]) ≠ [] ∧
        (if root ∈ l then l.erase root ++ [root] else l ++ [root]).getLast? =
          some root := by
      intro l
      split <;> exact ⟨by simp, by simp⟩
    unfold getLoadOrder
    rw [if_pos h]
    exact key _

theorem C7_amended_witness :
    getLoadOrder [("a", [])] "b" = [] ∧
    (getLoadOrder [("a", [])] "a").getLast? = some "a" :=
  ⟨(C7_amended [("a", [])] "b").1 (by decide),
   ((C7_amended [("a", [])] "a").2 (by decide)).2⟩

/-! ## Claim C8 -/

theorem recordsGrow_refl (p : Packages) : RecordsGrow p p := by
  intro n r h
  exact ⟨r, h, fun d hd => hd, fun d hd => hd⟩

theorem recordsGrow_trans {a b c : Packages}
    (h1 : RecordsGrow a b) (h2 : RecordsGrow b c) : RecordsGrow a c := by
  intro n r h
  obtain ⟨r1, hr1, hd1, hp1⟩ := h1 n r h
  obtain ⟨r2, hr2, hd2, hp2⟩ := h2 n r1 hr1
  exact ⟨r2, hr2, fun d hd => hd2 d (hd1 d hd), fun d hd => hp2 d (hp1 d hd)⟩

theorem lookupRecord_append_some {pkgs : Packages} {n : String} {r : PackageRecord}
    (l2 : Packages) (h : lookupRecord pkgs n = some r) :
    lookupRecord (pkgs ++ l2) n = some r := by
  induction pkgs with
  | nil => simp [lookupRecord] at h
  | cons e es ih =>
    simp only [lookupRecord, List.cons_append, List.lookup] at h ⊢
    cases heq : (n == e.1) with
    | true => rw [heq] at h; simpa using h
    | false => rw [heq] at h; simp only [] at h ⊢; exact ih h

theorem recordsGrow_append (p : Packages) (l2 : Packages) :
    RecordsGrow p (p ++ l2) := by
  intro n r h
  exact ⟨r, lookupRecord_append_some l2 h, fun d hd => hd, fun d hd => hd⟩

theorem recordsGrow_updateDeps (p : Packages) (name : String) (nd : List String) :
    RecordsGrow p (updateRecordDeps p name nd) := by
  intro n r h
  induction p with
  | nil => simp [lookupRecord] at h
  | cons e es ih =>
    rcases e with ⟨k, v⟩
    simp only [lookupRecord, List.lookup] at h
    by_cases hen : k = name
    · have hstep : updateRecordDeps ((k, v) :: es) name nd =
          (k, (⟨unionList v.dependencies nd, v.preDependencies⟩ : PackageRecord)) ::
            updateRecordDeps es name nd := by
        simp [updateRecordDeps, hen]
      rw [hstep]
      cases heq : (n == k) with
      | true =>
        rw [heq] at h
        simp only [Option.some.injEq] at h
        subst h
        refine ⟨⟨unionList v.dependencies nd, v.preDependencies⟩, ?_, ?_, ?_⟩
        · simp [lookupRecord, List.lookup, heq]
        · exact fun d hd => mem_unionList.mpr (Or.inl hd)
        · exact fun d hd => hd
      | false =>
        rw [heq] at h
        obtain ⟨r2, hr2, h1, h2⟩ := ih h
        exact ⟨r2, by simpa [lookupRecord, List.lookup, heq] using hr2, h1, h2⟩
    · have hstep : updateRecordDeps ((k, v) :: es) name nd =
          (k, v) :: updateRecordDeps es name nd := by
        simp [updateRecordDeps, hen]
      rw [hstep]
      cases heq : (n == k) with
      | true =>
        rw [heq] at h
        simp only [Option.some.injEq] at h
        subst h
        exact ⟨_, by simp [lookupRecord, List.lookup, heq],
          fun d hd => hd, fun d hd => hd⟩
      | false =>
        rw [heq] at h
        obtain ⟨r2, hr2, h1, h2⟩ := ih h
        exact ⟨r2, by simpa [lookupRecord, List.lookup, heq] using hr2, h1, h2⟩

theorem recordsGrow_updatePre (p : Packages) (name : String) (nd : List String) :
    RecordsGrow p (updateRecordPre p name nd) := by
  intro n r h
  induction p with
  | nil => simp [lookupRecord] at h
  | cons e es ih =>
    rcases e with ⟨k, v⟩
    simp only [lookupRecord, List.lookup] at h
    by_cases hen : k = name
    · have hstep : updateRecordPre ((k, v) :: es) name nd =
          (k, (⟨v.dependencies, unionList v.preDependencies nd⟩ : PackageRecord)) ::
            updateRecordPre es name nd := by
        simp [updateRecordPre, hen]
      rw [hstep]
      cases heq : (n == k) with
      | true =>
        rw [heq] at h
        simp only [Option.some.injEq] at h
        subst h
        refine ⟨⟨v.dependencies, unionList v.preDependencies nd⟩, ?_, ?_, ?_⟩
        · simp [lookupRecord, List.lookup, heq]
        · exact fun d hd => hd
        · exact fun d hd => mem_unionList.mpr (Or.inl hd)
      | false =>
        rw [heq] at h
        obtain ⟨r2, hr2, h1, h2⟩ := ih h
        exact ⟨r2, by simpa [lookupRecord, List.lookup, heq] using hr2, h1, h2⟩
    · have hstep : updateRecordPre ((k, v) :: es) name nd =
          (k, v) :: updateRecordPre es name nd := by
        simp [updateRecordPre, hen]
      rw [hstep]
      cases heq : (n == k) with
      | true =>
        rw [heq] at h
        simp only [Option.some.injEq] at h
        subst h
        exact ⟨_, by simp [lookupRecord, List.lookup, heq],
          fun d hd => hd, fun d hd => hd⟩
      | false =>
        rw [heq] at h
        obtain ⟨r2, hr2, h1, h2⟩ := ih h
        exact ⟨r2, by simpa [lookupRecord, List.lookup, heq] using hr2, h1, h2⟩

theorem flushField_grow {st : BlockState} {st2 : BlockState}
    (h : flushField st = some st2) : RecordsGrow st.pkgs st2.pkgs := by
  unfold flushField at h
  split  at h
  · simp only [Option.some.injEq] at h
    subst h
    split
    · exact recordsGrow_append _ _
    · exact recordsGrow_refl _
  · split at h
    · split at h
      · exact absurd h (by simp)
      · simp only [Option.some.injEq] at h
        subst h
        exact recordsGrow_updateDeps _ _ _
    · split at h
      · split at h
        · exact absurd h (by simp)
        · simp only [Option.some.injEq] at h
          subst h
          exact recordsGrow_updatePre _ _ _
      · simp only [Option.some.injEq] at h
        subst h
        exact recordsGrow_refl _

theorem processLine_grow {st st2 : BlockState} {line : String}
    (h : processLine st line = some st2) : RecordsGrow st.pkgs st2.pkgs := by
  unfold processLine at h
  split at h
  · split at h <;>
      (simp only [Option.some.injEq] at h; subst h; exact recordsGrow_refl _)
  · split at h
    · split at h
      · exact absurd h (by simp)
      case _ st1 hflush =>
        simp only [Option.some.injEq] at h
        subst h
        show RecordsGrow st.pkgs st1.pkgs
        exact flushField_grow hflush
    · simp only [Option.some.injEq] at h
      subst h
      exact recordsGrow_refl _

theorem foldlM_processLine_grow (lines : List String) :
    ∀ st st2 : BlockState, List.foldlM processLine st lines = some st2 →
      RecordsGrow st.pkgs st2.pkgs := by
  induction lines with
  | nil =>
    intro st st2 h
    obtain rfl : st = st2 := by
      have h2 : (some st : Option BlockState) = some st2 := h
      exact Option.some.inj h2
    exact recordsGrow_refl _
  | cons line rest ih =>
    intro st st2 h
    have h2 : (processLine st line).bind
        (fun s => List.foldlM processLine s rest) = some st2 := h
    cases hl : processLine st line with
    | none => rw [hl] at h2; exact absurd h2 (by simp)
    | some st1 =>
      rw [hl] at h2
      simp only [Option.some_bind] at h2
      exact recordsGrow_trans (processLine_grow hl) (ih st1 st2 h2)

/-- C8: counterexample to the claim as stated.  On a metadata text that
declares package A twice, the Depends field of the second block is merged
into the record created at the first occurrence: the resulting dependency
set is {x, y}, not the {x} of the first block alone. -/
theorem C8_counterexample :
    parsePackages "Package: A\nDepends: x\n\nPackage: A\nDepends: y" =
      some [("A", ⟨["x", "y"], []⟩)] ∧
    (⟨["x", "y"], []⟩ : PackageRecord) ≠ ⟨["x"], []⟩ := by
  constructor
  · decide
  · decide

/-- C8 as amended: a repeated Package declaration never re-creates or
resets the record of the first occurrence — processing any further block
preserves every existing record and only grows its dependency sets — but
dependency fields of the later block are unioned into the existing
record (on the duplicate text, A ends with dependency set {x, y}). -/
theorem C8_amended :
    (parsePackages "Package: A\nDepends: x\n\nPackage: A\nDepends: y" =
      some [("A", ⟨["x", "y"], []⟩)]) ∧
    ∀ pkgs block pkgs2, processBlock pkgs block = some pkgs2 →
      RecordsGrow pkgs pkgs2 := by
  refine ⟨by decide, ?_⟩
  intro pkgs block pkgs2 h
  unfold processBlock at h
  split at h
  · exact absurd h (by simp)
  case _ stN hfold =>
    split at h
    · exact absurd h (by simp)
    case _ stF hflush =>
      simp only [Option.some.injEq] at h
      subst h
      exact recordsGrow_trans (foldlM_processLine_grow _ _ _ hfold)
        (flushField_grow hflush)

theorem C8_amended_witness :
    ∃ r2, lookupRecord [("A", (⟨["x", "y"], []⟩ : PackageRecord))] "A" = some r2 ∧
      (∀ d ∈ (["x"] : List String), d ∈ r2.dependencies) ∧
      (∀ d ∈ ([] : List String), d ∈ r2.preDependencies) :=
  C8_amended.2 [("A", ⟨["x"], []⟩)] "Package: A\nDepends: y"
    [("A", ⟨["x", "y"], []⟩)] (by decide) "A" ⟨["x"], []⟩ rfl

/-! ## Claim C2 -/

theorem pyLower_eq_empty_iff (s : String) : pyLower s = "" ↔ s = "" := by
  unfold pyLower
  constructor
  · intro h
    have hd : s.data.map Char.toLower = [] := congrArg String.data h
    rcases s with ⟨l⟩
    simp at hd
    simp [hd]
  · rintro rfl
    rfl

theorem mem_graphAddKey {e : String × List String} {g : DepGraph} {p : String}
    (h : e ∈ graphAddKey g p) : e ∈ g ∨ e = (p, []) := by
  unfold graphAddKey at h
  split at h
  · exact Or.inl h
  · rcases List.mem_append.mp h with h | h
    · exact Or.inl h
    · simp at h
      exact Or.inr (by simp [h])

theorem mem_graphUpdate {e : String × List String} {g : DepGraph} {p : String}
    {deps : List String} (h : e ∈ graphUpdate g p deps) :
    ∃ e0 ∈ g, e.1 = e0.1 ∧ (e.2 = e0.2 ∨ e.2 = unionList e0.2 deps) := by
  unfold graphUpdate at h
  rcases List.mem_map.mp h with ⟨e0, he0, heq⟩
  refine ⟨e0, he0, ?_⟩
  by_cases hp : e0.1 = p
  · rw [if_pos hp] at heq
    exact ⟨by rw [← heq], Or.inr (by rw [← heq])⟩
  · rw [if_neg hp] at heq
    exact ⟨by rw [← heq], Or.inl (by rw [← heq])⟩

/-- The cycle branch touches only the cycle list: graph and visited set
are unchanged. -/
theorem recordCycle_state (path : List String) (package : String)
    (st : BuildState) :
    (recordCycle path package st).graph = st.graph ∧
    (recordCycle path package st).visited = st.visited := by
  simp only [recordCycle]
  split <;> split <;> exact ⟨rfl, rfl⟩

/-- Entry-wise preservation of the filter invariant by the expansion: if
every recorded key and every recorded dependency is unfiltered, that stays
true after any amount of expansion. -/
theorem bfsRec_filter_invariant (pkgs : Packages) (fs : String) (fuel : Nat) :
    ∀ (package : String) (path : List String) (st : BuildState),
    (∀ e ∈ st.graph, shouldFilterPackage fs e.1 = false ∧
      ∀ d ∈ e.2, shouldFilterPackage fs d = false) →
    ∀ e ∈ (bfsRec pkgs fs fuel package path st).graph,
      shouldFilterPackage fs e.1 = false ∧
      ∀ d ∈ e.2, shouldFilterPackage fs d = false := by
  induction fuel with
  | zero => exact fun package path st hst => hst
  | succ fuel ih =>
    intro package path st hst
    rw [bfsRec]
    split
    · -- cycle branch: the graph is untouched
      rw [(recordCycle_state _ _ _).1]
      exact hst
    · split
      · -- filtered package: untouched
        exact hst
      next hnp hfp =>
        -- main branch
        rcases hdeps : getPackageDependencies pkgs package with herr | directDeps
        · exact hst
        · simp only []
          have hfpf : shouldFilterPackage fs package = false := by
            revert hfp
            cases shouldFilterPackage fs package <;> simp
          -- invariant after the graph update
          have hg2 : ∀ e ∈ graphUpdate (graphAddKey st.graph package) package
              (directDeps.filter (fun d => !shouldFilterPackage fs d)),
              shouldFilterPackage fs e.1 = false ∧
              ∀ d ∈ e.2, shouldFilterPackage fs d = false := by
            intro e he
            rcases mem_graphUpdate he with ⟨e0, he0, hfst, hsnd⟩
            have he0P : shouldFilterPackage fs e0.1 = false ∧
                ∀ d ∈ e0.2, shouldFilterPackage fs d = false := by
              rcases mem_graphAddKey he0 with h0 | h0
              · exact hst e0 h0
              · rw [h0]
                exact ⟨hfpf, by simp⟩
            refine ⟨by rw [hfst]; exact he0P.1, ?_⟩
            rcases hsnd with h2 | h2
            · rw [h2]; exact he0P.2
            · rw [h2]
              intro d hd
              rcases mem_unionList.mp hd with hd | hd
              · exact he0P.2 d hd
              · have := (List.mem_filter.mp hd).2
                revert this
                cases shouldFilterPackage fs d <;> simp
          -- the dependency loop preserves the invariant, by the fuel IH
          have haux : ∀ (ds : List String) (s : BuildState),
              (∀ e ∈ s.graph, shouldFilterPackage fs e.1 = false ∧
                ∀ d ∈ e.2, shouldFilterPackage fs d = false) →
              ∀ e ∈ (ds.foldl
                (fun s d =>
                  if d ∈ s.visited then s
                  else bfsRec pkgs fs fuel d (insertOnce package path)
                    { s with visited := insertOnce d s.visited }) s).graph,
                shouldFilterPackage fs e.1 = false ∧
                ∀ d ∈ e.2, shouldFilterPackage fs d = false := by
            intro ds
            induction ds with
            | nil => exact fun s hs => hs
            | cons d ds ihds =>
              intro s hs
              rw [List.foldl_cons]
              by_cases hdv : d ∈ s.visited
              · rw [if_pos hdv]
                exact ihds s hs
              · rw [if_neg hdv]
                exact ihds _ (ih d (insertOnce package path)
                  { s with visited := insertOnce d s.visited } hs)
          exact haux _ _ hg2

/-- C2: a package name that matches the non-empty filter case-insensitively
never appears as a graph key nor inside any dependency-set value of the
built graph. -/
theorem C2_filtered_never_in_graph (pkgs : Packages) (fs root f : String)
    (hne : fs ≠ "")
    (hsub : containsSub (pyLower fs).data (pyLower f).data = true) :
    f ∉ keysG (buildGraphBFS pkgs fs root).graph ∧
    ∀ e ∈ (buildGraphBFS pkgs fs root).graph, f ∉ e.2 := by
  have hfilt : shouldFilterPackage fs f = true := by
    unfold shouldFilterPackage
    rw [if_neg (by simpa [pyLower_eq_empty_iff] using hne)]
    exact hsub
  have hmain : ∀ e ∈ (buildGraphBFS pkgs fs root).graph,
      shouldFilterPackage fs e.1 = false ∧
      ∀ d ∈ e.2, shouldFilterPackage fs d = false := by
    unfold buildGraphBFS
    split
    · simp
    next hroot =>
      apply bfsRec_filter_invariant
      intro e he
      simp at he
      rw [he]
      refine ⟨?_, by simp⟩
      revert hroot
      cases shouldFilterPackage fs root <;> simp
  constructor
  · intro hk
    rcases List.mem_map.mp hk with ⟨e, he, hef⟩
    have := (hmain e he).1
    rw [hef] at this
    rw [this] at hfilt
    exact Bool.false_ne_true hfilt
  · intro e he hf
    have := (hmain e he).2 f hf
    rw [this] at hfilt
    exact Bool.false_ne_true hfilt

theorem C2_filtered_witness :
    "libB" ∉ keysG (buildGraphBFS
      [("A", ⟨["libB", "C"], []⟩), ("libB", ⟨["C"], []⟩), ("C", ⟨[], []⟩)]
      "lib" "A").graph ∧
    ∀ e ∈ (buildGraphBFS
      [("A", ⟨["libB", "C"], []⟩), ("libB", ⟨["C"], []⟩), ("C", ⟨[], []⟩)]
      "lib" "A").graph, "libB" ∉ e.2 :=
  C2_filtered_never_in_graph _ "lib" "A" "libB" (by decide) (by decide)

/-! ## Claim C10 -/

theorem unionList_nodup {a : List String} (b : List String) (h : a.Nodup) :
    (unionList a b).Nodup := by
  induction b generalizing a with
  | nil => exact h
  | cons x xs ih =>
    show (unionList (insertOnce x a) xs).Nodup
    exact ih (insertOnce_nodup h)

theorem mem_keyFold (entries : DepGraph) :
    ∀ (acc : List String) (a : String),
    a ∈ entries.foldl (fun acc e => insertOnce e.1 acc) acc ↔
      a ∈ acc ∨ a ∈ keysG entries := by
  induction entries with
  | nil => simp [keysG]
  | cons e es ih =>
    intro acc a
    rw [List.foldl_cons, ih, mem_insertOnce]
    simp only [keysG, List.map_cons, List.mem_cons]
    tauto

theorem nodup_keyFold (entries : DepGraph) :
    ∀ acc : List String, acc.Nodup →
    (entries.foldl (fun acc e => insertOnce e.1 acc) acc).Nodup := by
  induction entries with
  | nil => exact fun acc h => h
  | cons e es ih =>
    intro acc h
    rw [List.foldl_cons]
    exact ih _ (insertOnce_nodup h)

theorem mem_valFold (entries : DepGraph) :
    ∀ (acc : List String) (a : String),
    a ∈ entries.foldl (fun acc e => unionList acc e.2) acc ↔
      a ∈ acc ∨ ∃ e ∈ entries, a ∈ e.2 := by
  induction entries with
  | nil => simp
  | cons e es ih =>
    intro acc a
    rw [List.foldl_cons, ih, mem_unionList]
    constructor
    · rintro ((h | h) | ⟨e2, he2, ha⟩)
      · exact Or.inl h
      · exact Or.inr ⟨e, List.mem_cons_self e es, h⟩
      · exact Or.inr ⟨e2, List.mem_cons_of_mem e he2, ha⟩
    · rintro (h | ⟨e2, he2, ha⟩)
      · exact Or.inl (Or.inl h)
      · rcases List.mem_cons.mp he2 with rfl | he2
        · exact Or.inl (Or.inr ha)
        · exact Or.inr ⟨e2, he2, ha⟩

theorem nodup_valFold (entries : DepGraph) :
    ∀ acc : List String, acc.Nodup →
    (entries.foldl (fun acc e => unionList acc e.2) acc).Nodup := by
  induction entries with
  | nil => exact fun acc h => h
  | cons e es ih =>
    intro acc h
    rw [List.foldl_cons]
    exact ih _ (unionList_nodup _ h)

theorem mem_getAllPackages {g : DepGraph} {a : String} :
    a ∈ getAllPackages g ↔ a ∈ keysG g ∨ ∃ e ∈ g, a ∈ e.2 := by
  unfold getAllPackages
  rw [mem_valFold, mem_keyFold]
  simp

theorem getAllPackages_nodup (g : DepGraph) : (getAllPackages g).Nodup :=
  nodup_valFold _ _ (nodup_keyFold _ _ List.nodup_nil)

theorem revDegStep_rev_mem {e : String × List String}
    {rd : (String → List String) × (String → Int)} {dep c x : String}
    (h : x ∈ (revDegStep e rd dep).1 c) : x ∈ rd.1 c ∨ x = e.1 := by
  unfold revDegStep at h
  dsimp only at h
  by_cases hc : c = dep
  · rw [if_pos hc] at h
    rcases mem_insertOnce.mp h with h | h
    · exact Or.inr h
    · exact Or.inl h
  · rw [if_neg hc] at h
    exact Or.inl h

theorem revDegEntry_rev_mem {e : String × List String} {c x : String} :
    ∀ {ds : List String} {rd : (String → List String) × (String → Int)},
    x ∈ (ds.foldl (revDegStep e) rd).1 c → x ∈ rd.1 c ∨ x = e.1 := by
  intro ds
  induction ds with
  | nil => exact fun h => Or.inl h
  | cons d ds ih =>
    intro rd h
    rw [List.foldl_cons] at h
    rcases ih h with h | h
    · exact revDegStep_rev_mem h
    · exact Or.inr h

theorem revDegInit_rev_mem {g : DepGraph} {c x : String}
    (h : x ∈ (revDegInit g).1 c) : x ∈ keysG g := by
  unfold revDegInit at h
  suffices haux : ∀ (entries : DepGraph) (rd : (String → List String) × (String → Int)),
      x ∈ (entries.foldl revDegEntry rd).1 c → x ∈ rd.1 c ∨ x ∈ keysG entries by
    rcases haux g _ h with h2 | h2
    · exact absurd h2 (List.not_mem_nil x)
    · exact h2
  intro entries
  induction entries with
  | nil => exact fun rd h2 => Or.inl h2
  | cons e es ih =>
    intro rd h2
    rw [List.foldl_cons] at h2
    rcases ih _ h2 with h3 | h3
    · rcases revDegEntry_rev_mem h3 with h4 | h4
      · exact Or.inl h4
      · exact Or.inr (by simp [keysG, h4])
    · exact Or.inr (by simp [keysG]; exact Or.inr (by simpa [keysG] using h3))

theorem kahnFold_acc (processed : List String) :
    ∀ (ds : List String) (deg : String → Int) (acc : List String),
    kahnFold processed ds deg acc =
      ((kahnFold processed ds deg []).1, acc ++ (kahnFold processed ds deg []).2) := by
  intro ds
  induction ds with
  | nil => intro deg acc; simp [kahnFold]
  | cons d ds ih =>
    intro deg acc
    rw [kahnFold, kahnFold]
    by_cases hd : d ∈ processed
    · rw [if_pos hd, if_pos hd]
      exact ih deg acc
    · rw [if_neg hd, if_neg hd]
      by_cases hz : ((fun x => if x = d then deg x - 1 else deg x) d == 0) = true
      · rw [if_pos hz, if_pos hz]
        rw [ih _ (acc ++ [d]), ih _ ([] ++ [d])]
        simp
      · rw [if_neg hz, if_neg hz]
        exact ih _ acc

theorem kahnFold_mem {processed : List String} {x : String} :
    ∀ {ds : List String} {deg : String → Int},
    x ∈ (kahnFold processed ds deg []).2 → x ∈ ds := by
  intro ds
  induction ds with
  | nil => intro deg h; simp [kahnFold] at h
  | cons d ds ih =>
    intro deg h
    rw [kahnFold] at h
    by_cases hd : d ∈ processed
    · rw [if_pos hd] at h
      exact List.mem_cons_of_mem d (ih h)
    · rw [if_neg hd] at h
      by_cases hz : ((fun x => if x = d then deg x - 1 else deg x) d == 0) = true
      · rw [if_pos hz, kahnFold_acc _ _ _ ([] ++ [d])] at h
        simp only [List.nil_append] at h
        rcases List.mem_append.mp h with h | h
        · simp at h
          simp [h]
        · exact List.mem_cons_of_mem d (ih h)
      · rw [if_neg hz] at h
        exact List.mem_cons_of_mem d (ih h)

theorem kahnLoop_basic (revG : String → List String) (U : List String)
    (hrev : ∀ c x, x ∈ revG c → x ∈ U) (fuel : Nat) :
    ∀ (queue result processed : List String) (deg : String → Int),
    (∀ x ∈ queue, x ∈ U) → (∀ x ∈ result, x ∈ U) → result.Nodup →
    (∀ x, x ∈ processed ↔ x ∈ result) →
    (∀ x ∈ (kahnLoop revG fuel queue result processed deg).1, x ∈ U) ∧
    (kahnLoop revG fuel queue result processed deg).1.Nodup := by
  induction fuel with
  | zero =>
    intro queue result processed deg hq hr hnd hpr
    exact ⟨hr, hnd⟩
  | succ fuel ih =>
    intro queue result processed deg hq hr hnd hpr
    cases queue with
    | nil => exact ⟨hr, hnd⟩
    | cons c q =>
      rw [kahnLoop]
      by_cases hc : c ∈ processed
      · rw [if_pos hc]
        exact ih q result processed deg
          (fun x hx => hq x (List.mem_cons_of_mem c hx)) hr hnd hpr
      · rw [if_neg hc]
        apply ih
        · intro x hx
          rcases List.mem_append.mp hx with hx | hx
          · exact hq x (List.mem_cons_of_mem c hx)
          · exact hrev c x (kahnFold_mem hx)
        · intro x hx
          rcases List.mem_append.mp hx with hx | hx
          · exact hr x hx
          · simp at hx
            rw [hx]
            exact hq c (List.mem_cons_self c q)
        · rw [List.nodup_append]
          refine ⟨hnd, List.nodup_singleton c, ?_⟩
          intro x hx hxc
          simp at hxc
          rw [hxc] at hx
          exact hc ((hpr c).mpr hx)
        · intro x
          rw [mem_insertOnce]
          simp only [List.mem_append, List.mem_singleton]
          rw [hpr x]
          tauto

/-- The final fixup of get_load_order preserves freedom from duplicates
and node membership (up to the root itself). -/
theorem fixup_basic {U res : List String} {root : String}
    (hmem : ∀ x ∈ res, x ∈ U) (hnd : res.Nodup) :
    (if root ∈ res then res.erase root ++ [root] else res ++ [root]).Nodup ∧
    ∀ x ∈ (if root ∈ res then res.erase root ++ [root] else res ++ [root]),
      x ∈ U ∨ x = root := by
  by_cases hr : root ∈ res
  · rw [if_pos hr]
    constructor
    · rw [List.nodup_append]
      refine ⟨hnd.erase root, List.nodup_singleton root, ?_⟩
      intro x hx hxr
      simp at hxr
      rw [hxr] at hx
      exact ((List.Nodup.mem_erase_iff hnd).mp hx).1 rfl
    · intro x hx
      rcases List.mem_append.mp hx with hx | hx
      · exact Or.inl (hmem x (List.mem_of_mem_erase hx))
      · simp at hx
        exact Or.inr hx
  · rw [if_neg hr]
    constructor
    · rw [List.nodup_append]
      refine ⟨hnd, List.nodup_singleton root, ?_⟩
      intro x hx hxr
      simp at hxr
      rw [hxr] at hx
      exact hr hx
    · intro x hx
      rcases List.mem_append.mp hx with hx | hx
      · exact Or.inl (hmem x hx)
      · simp at hx
        exact Or.inr hx

/-- C10: the load order never contains a duplicate, and each of its
elements is a node of the graph or the requested root itself. -/
theorem C10_load_order_nodup_and_nodes (g : DepGraph) (root : String) :
    (getLoadOrder g root).Nodup ∧
    ∀ x ∈ getLoadOrder g root, x ∈ getAllPackages g ∨ x = root := by
  unfold getLoadOrder
  split
  · have hbasic := kahnLoop_basic (revDegInit g).1 (getAllPackages g)
      (fun c x hx => mem_getAllPackages.mpr (Or.inl (revDegInit_rev_mem hx)))
      (2 * (getAllPackages g).length + 1) (seedOf g) [] [] (revDegInit g).2
      (fun x hx => (List.mem_filter.mp hx).1)
      (by simp) List.nodup_nil (by simp)
    exact ⟨(fixup_basic hbasic.1 hbasic.2).1, (fixup_basic hbasic.1 hbasic.2).2⟩
  · simp

theorem C10_load_order_witness :
    (getLoadOrder [("A", ["B"]), ("B", [])] "A").Nodup ∧
    ("B" ∈ getLoadOrder [("A", ["B"]), ("B", [])] "A" →
      "B" ∈ getAllPackages [("A", ["B"]), ("B", [])] ∨ "B" = "A") :=
  ⟨(C10_load_order_nodup_and_nodes [("A", ["B"]), ("B", [])] "A").1,
   (C10_load_order_nodup_and_nodes [("A", ["B"]), ("B", [])] "A").2 "B"⟩

/-! ## Claim C3 -/

theorem lookup_eq_none_keys {β : Type} {l : List (String × β)} {x : String}
    (h : x ∉ l.map Prod.fst) : List.lookup x l = none := by
  induction l with
  | nil => rfl
  | cons e es ih =>
    simp only [List.map_cons, List.mem_cons] at h
    push_neg at h
    rw [List.lookup]
    cases heq : (x == e.1) with
    | true => exact absurd (by simpa using heq) h.1
    | false => exact ih h.2

theorem mem_keys_of_lookup_eq_some {β : Type} {l : List (String × β)} {x : String}
    {b : β} (h : List.lookup x l = some b) : x ∈ l.map Prod.fst := by
  by_contra hx
  rw [lookup_eq_none_keys hx] at h
  exact Option.noConfusion h

theorem mem_of_lookup_eq_some {β : Type} {l : List (String × β)} {x : String}
    {b : β} (h : List.lookup x l = some b) : (x, b) ∈ l := by
  induction l with
  | nil => exact absurd h Option.noConfusion
  | cons e es ih =>
    rw [List.lookup] at h
    cases heq : (x == e.1) with
    | true =>
      rw [heq] at h
      simp only [Option.some.injEq] at h
      have hx : x = e.1 := by simpa using heq
      have hxb : (x, b) = e := by rw [hx, ← h]
      rw [hxb]
      exact List.mem_cons_self e es
    | false =>
      rw [heq] at h
      exact List.mem_cons_of_mem e (ih h)

theorem revDegStep_deg (e : String × List String)
    (rd : (String → List String) × (String → Int)) (dep x : String) :
    (revDegStep e rd dep).2 x = rd.2 x + (if x = e.1 then 1 else 0) := by
  unfold revDegStep
  dsimp only
  split <;> simp

theorem revDegEntry_deg (e : String × List String) (x : String) :
    ∀ (ds : List String) (rd : (String → List String) × (String → Int)),
    (ds.foldl (revDegStep e) rd).2 x =
      rd.2 x + (if x = e.1 then (ds.length : Int) else 0) := by
  intro ds
  induction ds with
  | nil => intro rd; simp
  | cons d ds ih =>
    intro rd
    rw [List.foldl_cons, ih, revDegStep_deg]
    by_cases hx : x = e.1
    · simp only [if_pos hx, List.length_cons]
      push_cast
      ring
    · simp [hx]

theorem revDegInit_deg (g : DepGraph) (hnd : (keysG g).Nodup) (x : String) :
    (revDegInit g).2 x = ((depsOfG g x).length : Int) := by
  unfold revDegInit
  suffices haux : ∀ (entries : DepGraph)
      (rd : (String → List String) × (String → Int)),
      (entries.map Prod.fst).Nodup →
      (entries.foldl revDegEntry rd).2 x =
        rd.2 x + (((List.lookup x entries).getD []).length : Int) by
    have hfin := haux g (fun _ => ([] : List String), fun _ => (0 : Int))
      (by simpa [keysG] using hnd)
    simpa [depsOfG] using hfin
  intro entries
  induction entries with
  | nil => intro rd hh; simp
  | cons e es ih =>
    intro rd hh
    simp only [List.map_cons, List.nodup_cons] at hh
    rw [List.foldl_cons]
    have hentry : (revDegEntry rd e).2 x =
        rd.2 x + (if x = e.1 then (e.2.length : Int) else 0) :=
      revDegEntry_deg e x e.2 rd
    rw [ih _ hh.2, hentry, List.lookup]
    by_cases hx : x = e.1
    · have hxe : (x == e.1) = true := by simpa using hx
      rw [hxe]
      have hnot : x ∉ es.map Prod.fst := by rw [hx]; exact hh.1
      rw [lookup_eq_none_keys hnot]
      simp [hx]
    · have hxe : (x == e.1) = false := by simpa using hx
      rw [hxe]
      simp [hx]

/-- C3: counterexample to the sorted seeding stated by the claim.  On the
graph built from the catalog {r: {b, a}} the source seeds the queue in
node-set iteration order and returns [b, a, r], while the spec-modelled
variant with a lexicographically sorted seed returns [a, b, r]. -/
theorem C3_counterexample :
    getLoadOrder (buildGraphBFS [("r", ⟨["b", "a"], []⟩)] "" "r").graph "r" =
      ["b", "a", "r"] ∧
    getLoadOrderSortedSeed
      (buildGraphBFS [("r", ⟨["b", "a"], []⟩)] "" "r").graph "r" =
      ["a", "b", "r"] ∧
    getLoadOrder (buildGraphBFS [("r", ⟨["b", "a"], []⟩)] "" "r").graph "r" ≠
      getLoadOrderSortedSeed
        (buildGraphBFS [("r", ⟨["b", "a"], []⟩)] "" "r").graph "r" := by
  refine ⟨by decide, by decide, by decide⟩

/-- C3 as amended: the build, the statistics and the load-order
computation are pure functions of the catalog representation, root and
filter — two computations on identical inputs (identical set iteration
order included, modelled as insertion order) give identical results — and
the work queue is seeded with exactly the zero-remaining-count nodes
(equivalently, on a duplicate-free graph, the nodes with an empty
dependency entry), in node-set iteration order rather than sorted order. -/
theorem C3_amended :
    (∀ (pkgs : Packages) (fs root : String),
      buildGraphBFS pkgs fs root = buildGraphBFS pkgs fs root ∧
      getStatistics (buildGraphBFS pkgs fs root) =
        getStatistics (buildGraphBFS pkgs fs root)) ∧
    (∀ (g : DepGraph) (root : String), getLoadOrder g root = getLoadOrder g root) ∧
    (∀ g : DepGraph, (keysG g).Nodup →
      ∀ x, x ∈ seedOf g ↔ x ∈ getAllPackages g ∧ depsOfG g x = []) := by
  refine ⟨fun pkgs fs root => ⟨rfl, rfl⟩, fun g root => rfl, ?_⟩
  intro g hnd x
  unfold seedOf
  rw [List.mem_filter]
  constructor
  · rintro ⟨hall, hz⟩
    refine ⟨hall, ?_⟩
    rw [revDegInit_deg g hnd x] at hz
    have hz2 : ((depsOfG g x).length : Int) = 0 := by simpa using hz
    have hlen : (depsOfG g x).length = 0 := by exact_mod_cast hz2
    exact List.length_eq_zero.mp hlen
  · rintro ⟨hall, hz⟩
    refine ⟨hall, ?_⟩
    rw [revDegInit_deg g hnd x, hz]
    simp

theorem C3_amended_witness : "a" ∈ seedOf [("a", [])] :=
  (C3_amended.2.2 [("a", [])] (by decide) "a").mpr ⟨by decide, by decide⟩

/-! ## Claim C4 -/

theorem lookup_append_some {β : Type} {l1 : List (String × β)} {x : String}
    {b : β} (l2 : List (String × β)) (h : List.lookup x l1 = some b) :
    List.lookup x (l1 ++ l2) = some b := by
  induction l1 with
  | nil => exact absurd h Option.noConfusion
  | cons e es ih =>
    rw [List.lookup] at h
    show List.lookup x (e :: (es ++ l2)) = some b
    rw [List.lookup]
    cases heq : (x == e.1) with
    | true => rw [heq] at h; exact h
    | false => rw [heq] at h; exact ih h

theorem lookup_isSome_keys {β : Type} {l : List (String × β)} {x : String}
    (h : x ∈ l.map Prod.fst) : ∃ b, List.lookup x l = some b := by
  cases hl : List.lookup x l with
  | some b => exact ⟨b, rfl⟩
  | none =>
    induction l with
    | nil => simp at h
    | cons e es ih =>
      rw [List.lookup] at hl
      cases heq : (x == e.1) with
      | true => rw [heq] at hl; exact Option.noConfusion hl
      | false =>
        rw [heq] at hl
        have hx : x ≠ e.1 := by simpa using heq
        simp only [List.map_cons, List.mem_cons] at h
        exact ih (h.resolve_left hx) hl

theorem mem_depsOfG_graphAddKey {g : DepGraph} {p q d : String}
    (h : d ∈ depsOfG g q) : d ∈ depsOfG (graphAddKey g p) q := by
  unfold graphAddKey
  split
  · exact h
  · unfold depsOfG at h ⊢
    cases hl : List.lookup q g with
    | none => rw [hl] at h; simp at h
    | some ds =>
      rw [hl] at h
      rw [lookup_append_some _ hl]
      exact h

theorem lookup_graphUpdate (g : DepGraph) (p q : String) (deps : List String) :
    List.lookup q (graphUpdate g p deps) =
      (List.lookup q g).map (fun ds => if q = p then unionList ds deps else ds) := by
  induction g with
  | nil => rfl
  | cons e es ih =>
    rcases e with ⟨k, v⟩
    by_cases hkp : k = p
    · have hstep : graphUpdate ((k, v) :: es) p deps =
          (k, unionList v deps) :: graphUpdate es p deps := by
        simp [graphUpdate, hkp]
      rw [hstep, List.lookup, List.lookup]
      cases heq : (q == k) with
      | true =>
        have hq : q = k := by simpa using heq
        simp [hq, hkp]
      | false => exact ih
    · have hstep : graphUpdate ((k, v) :: es) p deps =
          (k, v) :: graphUpdate es p deps := by
        simp [graphUpdate, hkp]
      rw [hstep, List.lookup, List.lookup]
      cases heq : (q == k) with
      | true =>
        have hq : q = k := by simpa using heq
        simp [hq, hkp]
      | false => exact ih

theorem mem_depsOfG_graphUpdate_old {g : DepGraph} {p q d : String}
    {deps : List String} (h : d ∈ depsOfG g q) :
    d ∈ depsOfG (graphUpdate g p deps) q := by
  unfold depsOfG at h ⊢
  rw [lookup_graphUpdate]
  cases hl : List.lookup q g with
  | none => rw [hl] at h; simp at h
  | some ds =>
    rw [hl] at h
    simp only [Option.map_some, Option.getD_some] at *
    split
    · exact mem_unionList.mpr (Or.inl h)
    · exact h

theorem mem_depsOfG_graphUpdate_new {g : DepGraph} {p d : String}
    {deps : List String} (hp : p ∈ keysG g) (hd : d ∈ deps) :
    d ∈ depsOfG (graphUpdate g p deps) p := by
  unfold depsOfG
  rw [lookup_graphUpdate]
  obtain ⟨ds, hds⟩ := lookup_isSome_keys (by simpa [keysG] using hp)
  rw [hds]
  simp only [Option.map_some, Option.getD_some, if_pos rfl]
  exact mem_unionList.mpr (Or.inr hd)

theorem mem_keysG_graphAddKey_self (g : DepGraph) (p : String) :
    p ∈ keysG (graphAddKey g p) := by
  unfold graphAddKey
  split
  next hs =>
    rcases hl : List.lookup p g with _ | ds
    · rw [hl] at hs; simp at hs
    · show p ∈ keysG g
      unfold keysG
      exact List.mem_map.mpr ⟨(p, ds), mem_of_lookup_eq_some hl, rfl⟩
  · simp [keysG]

theorem mem_keysG_graphAddKey_old {g : DepGraph} {p q : String}
    (h : q ∈ keysG g) : q ∈ keysG (graphAddKey g p) := by
  unfold graphAddKey
  split
  · exact h
  · simp only [keysG, List.map_append] at *
    exact List.mem_append.mpr (Or.inl h)

theorem keysG_graphUpdate (g : DepGraph) (p : String) (deps : List String) :
    keysG (graphUpdate g p deps) = keysG g := by
  induction g with
  | nil => rfl
  | cons e es ih =>
    simp only [graphUpdate, keysG, List.map_cons] at ih ⊢
    rw [ih]
    congr 1
    split <;> rfl

/-- The expansion never removes a recorded edge. -/
theorem bfsRec_edges_mono (pkgs : Packages) (fs : String) (fuel : Nat) :
    ∀ (package : String) (path : List String) (st : BuildState) (q d : String),
    d ∈ depsOfG st.graph q →
    d ∈ depsOfG (bfsRec pkgs fs fuel package path st).graph q := by
  induction fuel with
  | zero => exact fun _ _ _ _ _ h => h
  | succ fuel ih =>
    intro package path st q d h
    rw [bfsRec]
    split
    · rw [(recordCycle_state _ _ _).1]
      exact h
    · split
      · exact h
      · rcases hdeps : getPackageDependencies pkgs package with herr | directDeps
        · exact h
        · simp only []
          have hg2 : d ∈ depsOfG (graphUpdate (graphAddKey st.graph package) package
              (directDeps.filter (fun x => !shouldFilterPackage fs x))) q :=
            mem_depsOfG_graphUpdate_old (mem_depsOfG_graphAddKey h)
          have haux : ∀ (ds : List String) (s : BuildState),
              d ∈ depsOfG s.graph q →
              d ∈ depsOfG ((ds.foldl
                (fun s d2 =>
                  if d2 ∈ s.visited then s
                  else bfsRec pkgs fs fuel d2 (insertOnce package path)
                    { s with visited := insertOnce d2 s.visited }) s)).graph q := by
            intro ds
            induction ds with
            | nil => exact fun s hs => hs
            | cons d2 ds ihds =>
              intro s hs
              rw [List.foldl_cons]
              by_cases hdv : d2 ∈ s.visited
              · rw [if_pos hdv]
                exact ihds s hs
              · rw [if_neg hdv]
                exact ihds _ (ih d2 (insertOnce package path)
                  { s with visited := insertOnce d2 s.visited } q d hs)
          exact haux _ _ hg2

/-- The expansion never removes a graph key. -/
theorem bfsRec_keys_mono (pkgs : Packages) (fs : String) (fuel : Nat) :
    ∀ (package : String) (path : List String) (st : BuildState) (q : String),
    q ∈ keysG st.graph →
    q ∈ keysG (bfsRec pkgs fs fuel package path st).graph := by
  induction fuel with
  | zero => exact fun _ _ _ _ h => h
  | succ fuel ih =>
    intro package path st q h
    rw [bfsRec]
    split
    · rw [(recordCycle_state _ _ _).1]
      exact h
    · split
      · exact h
      · rcases hdeps : getPackageDependencies pkgs package with herr | directDeps
        · exact h
        · simp only []
          have hg2 : q ∈ keysG (graphUpdate (graphAddKey st.graph package) package
              (directDeps.filter (fun x => !shouldFilterPackage fs x))) := by
            rw [keysG_graphUpdate]
            exact mem_keysG_graphAddKey_old h
          have haux : ∀ (ds : List String) (s : BuildState),
              q ∈ keysG s.graph →
              q ∈ keysG ((ds.foldl
                (fun s d2 =>
                  if d2 ∈ s.visited then s
                  else bfsRec pkgs fs fuel d2 (insertOnce package path)
                    { s with visited := insertOnce d2 s.visited }) s)).graph := by
            intro ds
            induction ds with
            | nil => exact fun s hs => hs
            | cons d2 ds ihds =>
              intro s hs
              rw [List.foldl_cons]
              by_cases hdv : d2 ∈ s.visited
              · rw [if_pos hdv]
                exact ihds s hs
              · rw [if_neg hdv]
                exact ihds _ (ih d2 (insertOnce package path)
                  { s with visited := insertOnce d2 s.visited } q hs)
          exact haux _ _ hg2

theorem head_drop_indexOf {a : String} : ∀ {l : List String}, a ∈ l →
    (l.drop (l.indexOf a)).head? = some a := by
  intro l
  induction l with
  | nil => intro h; simp at h
  | cons p ps ih =>
    intro h
    by_cases hpa : p = a
    · rw [List.indexOf_cons_eq ps hpa]
      simp [hpa]
    · rw [List.indexOf_cons_ne ps hpa, List.drop_succ_cons]
      apply ih
      rcases List.mem_cons.mp h with h | h
      · exact absurd h.symm hpa
      · exact h

/-- Characterization of the cycle branch: the recorded sequence (when one
is recorded at all) is exactly the path sliced from the first occurrence
of the package, closed with the package; the normalisation step of the
source is the identity on such a slice. -/
theorem recordCycle_cycles_charact (path : List String) (package : String)
    (st : BuildState) (hmem : package ∈ path) :
    (recordCycle path package st).cycles = st.cycles ∨
    (recordCycle path package st).cycles =
      st.cycles ++ [path.drop (path.indexOf package) ++ [package]] := by
  simp only [recordCycle]
  have hhead : (path.drop (path.indexOf package) ++ [package]).headD "" = package := by
    cases hdrop : path.drop (path.indexOf package) with
    | nil => simp
    | cons y ys =>
      have hh := head_drop_indexOf hmem
      rw [hdrop] at hh
      simp only [List.head?_cons, Option.some.injEq] at hh
      simp [hh]
  have hnorm : (if ((path.drop (path.indexOf package) ++ [package]).length > 1 &&
      ((path.drop (path.indexOf package) ++ [package]).headD "" ==
        (path.drop (path.indexOf package) ++ [package]).getLastD "")) = true then
      (path.drop (path.indexOf package) ++ [package]).dropLast ++
        [(path.drop (path.indexOf package) ++ [package]).headD ""]
    else path.drop (path.indexOf package) ++ [package]) =
      path.drop (path.indexOf package) ++ [package] := by
    split
    · rw [hhead, List.dropLast_concat]
    · rfl
  rw [hnorm]
  split
  · exact Or.inr rfl
  · exact Or.inl rfl

/-- Every cycle recorded by the expansion is a chain of recorded graph
edges whose final element equals its first, provided the current path is
itself such a chain and the cycles already recorded are. -/
theorem bfsRec_cycles_chain (pkgs : Packages) (fs : String) (fuel : Nat) :
    ∀ (package : String) (path : List String) (st : BuildState),
    List.Chain' (fun x y => y ∈ depsOfG st.graph x) (path ++ [package]) →
    (∀ cyc ∈ st.cycles,
      List.Chain' (fun x y => y ∈ depsOfG st.graph x) cyc ∧
      cyc.head? = cyc.getLast?) →
    ∀ cyc ∈ (bfsRec pkgs fs fuel package path st).cycles,
      List.Chain'
        (fun x y => y ∈ depsOfG (bfsRec pkgs fs fuel package path st).graph x) cyc ∧
      cyc.head? = cyc.getLast? := by
  induction fuel with
  | zero => exact fun package path st hpath hcyc => hcyc
  | succ fuel ih =>
    intro package path st hpath hcyc
    rw [bfsRec]
    split
    next hmem =>
      rw [(recordCycle_state path package st).1]
      rcases recordCycle_cycles_charact path package st hmem with hc | hc <;> rw [hc]
      · exact hcyc
      · intro cyc hcycmem
        rcases List.mem_append.mp hcycmem with hold | hnew
        · exact hcyc cyc hold
        · simp only [List.mem_singleton] at hnew
          subst hnew
          have hidx : path.indexOf package ≤ path.length := List.indexOf_le_length
          have hdropeq : (path ++ [package]).drop (path.indexOf package) =
              path.drop (path.indexOf package) ++ [package] :=
            List.drop_append_of_le_length hidx
          constructor
          · have := hpath.drop (path.indexOf package)
            rw [hdropeq] at this
            exact this
          · rw [List.getLast?_concat]
            cases hdrop : path.drop (path.indexOf package) with
            | nil => simp
            | cons y ys =>
              have hh := head_drop_indexOf hmem
              rw [hdrop] at hh
              simpa using hh
    next hnp =>
      split
      · exact hcyc
      next hfp =>
        rcases hdeps : getPackageDependencies pkgs package with herr | directDeps
        · exact hcyc
        · simp only []
          have hkey : package ∈ keysG (graphAddKey st.graph package) :=
            mem_keysG_graphAddKey_self st.graph package
          have hmono2 : ∀ q d2, d2 ∈ depsOfG st.graph q →
              d2 ∈ depsOfG (graphUpdate (graphAddKey st.graph package) package
                (directDeps.filter (fun x => !shouldFilterPackage fs x))) q :=
            fun q d2 hqd => mem_depsOfG_graphUpdate_old (mem_depsOfG_graphAddKey hqd)
          have hpath1 : List.Chain'
              (fun x y => y ∈ depsOfG (graphUpdate (graphAddKey st.graph package)
                package (directDeps.filter (fun x => !shouldFilterPackage fs x))) x)
              (path ++ [package]) :=
            hpath.imp (fun a b hab => hmono2 a b hab)
          have hcyc1 : ∀ cyc ∈ st.cycles,
              List.Chain' (fun x y => y ∈ depsOfG (graphUpdate (graphAddKey st.graph
                package) package
                (directDeps.filter (fun x => !shouldFilterPackage fs x))) x) cyc ∧
              cyc.head? = cyc.getLast? :=
            fun cyc hc => ⟨(hcyc cyc hc).1.imp (fun a b hab => hmono2 a b hab),
              (hcyc cyc hc).2⟩
          have hdeps_in : ∀ d2 ∈ directDeps.filter (fun x => !shouldFilterPackage fs x),
              d2 ∈ depsOfG (graphUpdate (graphAddKey st.graph package) package
                (directDeps.filter (fun x => !shouldFilterPackage fs x))) package :=
            fun d2 hd2 => mem_depsOfG_graphUpdate_new hkey hd2
          have hins : insertOnce package path = path ++ [package] :=
            insertOnce_of_not_mem hnp
          have haux : ∀ (ds : List String) (s : BuildState),
              (∀ d2 ∈ ds, d2 ∈ depsOfG s.graph package) →
              List.Chain' (fun x y => y ∈ depsOfG s.graph x) (path ++ [package]) →
              (∀ cyc ∈ s.cycles,
                List.Chain' (fun x y => y ∈ depsOfG s.graph x) cyc ∧
                cyc.head? = cyc.getLast?) →
              ∀ cyc ∈ ((ds.foldl
                (fun s d2 =>
                  if d2 ∈ s.visited then s
                  else bfsRec pkgs fs fuel d2 (insertOnce package path)
                    { s with visited := insertOnce d2 s.visited }) s)).cycles,
                List.Chain' (fun x y => y ∈ depsOfG ((ds.foldl
                  (fun s d2 =>
                    if d2 ∈ s.visited then s
                    else bfsRec pkgs fs fuel d2 (insertOnce package path)
                      { s with visited := insertOnce d2 s.visited }) s)).graph x) cyc ∧
                cyc.head? = cyc.getLast? := by
            intro ds
            induction ds with
            | nil => exact fun s hds hch hcy => hcy
            | cons d2 ds ihds =>
              intro s hds hch hcy
              rw [List.foldl_cons]
              by_cases hdv : d2 ∈ s.visited
              · rw [if_pos hdv]
                exact ihds s (fun x hx => hds x (List.mem_cons_of_mem d2 hx)) hch hcy
              · rw [if_neg hdv]
                have hpre : List.Chain'
                    (fun x y => y ∈ depsOfG
                      ({ s with visited := insertOnce d2 s.visited } : BuildState).graph x)
                    (insertOnce package path ++ [d2]) := by
                  rw [hins]
                  rw [List.chain'_append]
                  refine ⟨hch, List.chain'_singleton d2, ?_⟩
                  intro x hx y hy
                  rw [List.getLast?_concat] at hx
                  simp only [Option.mem_def, Option.some.injEq] at hx
                  simp only [List.head?_cons, Option.mem_def, Option.some.injEq] at hy
                  rw [← hx, ← hy]
                  exact hds d2 (List.mem_cons_self d2 ds)
                have hstep := ih d2 (insertOnce package path)
                  { s with visited := insertOnce d2 s.visited } hpre
                  (fun cyc hc => hcy cyc hc)
                apply ihds
                · intro x hx
                  exact bfsRec_edges_mono pkgs fs fuel d2 (insertOnce package path)
                    { s with visited := insertOnce d2 s.visited } package x
                    (hds x (List.mem_cons_of_mem d2 hx))
                · exact hch.imp (fun a b hab =>
                    bfsRec_edges_mono pkgs fs fuel d2 (insertOnce package path)
                      { s with visited := insertOnce d2 s.visited } a b hab)
                · exact hstep
          exact haux _ _ hdeps_in hpath1 hcyc1

/-- C4: counterexample to the claim as stated.  In the catalog
{A: {C, B}, C: {B}, B: {A}}, A depends on B and B depends on A, yet the
build from A records exactly one cycle [A, C, B, A] (the direct two-name
cycle is missed because B is first reached and globally marked visited via
the longer path through C), so the cycle list contains no length-3
sequence of the two names at all. -/
theorem C4_counterexample :
    getPackageDependencies
      [("A", ⟨["C", "B"], []⟩), ("C", ⟨["B"], []⟩), ("B", ⟨["A"], []⟩)] "A" =
      Except.ok ["C", "B"] ∧
    getPackageDependencies
      [("A", ⟨["C", "B"], []⟩), ("C", ⟨["B"], []⟩), ("B", ⟨["A"], []⟩)] "B" =
      Except.ok ["A"] ∧
    (buildGraphBFS
      [("A", ⟨["C", "B"], []⟩), ("C", ⟨["B"], []⟩), ("B", ⟨["A"], []⟩)]
      "" "A").cycles = [["A", "C", "B", "A"]] ∧
    ¬ (["A", "B", "A"] ∈ (buildGraphBFS
        [("A", ⟨["C", "B"], []⟩), ("C", ⟨["B"], []⟩), ("B", ⟨["A"], []⟩)]
        "" "A").cycles ∨
       ["B", "A", "B"] ∈ (buildGraphBFS
        [("A", ⟨["C", "B"], []⟩), ("C", ⟨["B"], []⟩), ("B", ⟨["A"], []⟩)]
        "" "A").cycles) :=
  ⟨rfl, rfl, by decide, by decide⟩

/-- C4 as amended: on the two-package catalog in which A and B depend
exactly on each other, the build from either root records exactly the one
closed sequence of length 3 starting at that root ([A,B,A] from A,
[B,A,B] from B) and not both; and in general every recorded cycle
sequence is ordered so that each consecutive name is a direct dependency
of the previous one in the built graph, with its final element equal to
its first. -/
theorem C4_amended :
    ((buildGraphBFS [("A", ⟨["B"], []⟩), ("B", ⟨["A"], []⟩)] "" "A").cycles =
      [["A", "B", "A"]]) ∧
    ((buildGraphBFS [("A", ⟨["B"], []⟩), ("B", ⟨["A"], []⟩)] "" "B").cycles =
      [["B", "A", "B"]]) ∧
    ∀ (pkgs : Packages) (fs root : String) (cyc : List String),
      cyc ∈ (buildGraphBFS pkgs fs root).cycles →
      List.Chain'
        (fun x y => y ∈ depsOfG (buildGraphBFS pkgs fs root).graph x) cyc ∧
      cyc.head? = cyc.getLast? := by
  refine ⟨by decide, by decide, ?_⟩
  intro pkgs fs root cyc hcyc
  revert hcyc
  unfold buildGraphBFS
  split
  · intro hcyc
    simp at hcyc
  · exact fun hcyc => bfsRec_cycles_chain pkgs fs (buildFuel pkgs) root []
      ⟨[(root, [])], [], []⟩ (List.chain'_singleton root) (by simp) cyc hcyc

theorem C4_amended_witness :
    (["A", "B", "A"] : List String).head? = (["A", "B", "A"] : List String).getLast? :=
  (C4_amended.2.2 [("A", ⟨["B"], []⟩), ("B", ⟨["A"], []⟩)] "" "A"
    ["A", "B", "A"] (by decide)).2

/-! ## Claim C5 -/

theorem reachG_mono {gA gB : DepGraph} {a b : String}
    (hmono : ∀ q d, d ∈ depsOfG gA q → d ∈ depsOfG gB q)
    (h : ReachG gA a b) : ReachG gB a b := by
  induction h with
  | refl => exact ReachG.refl
  | step hr he ih => exact ReachG.step ih (hmono _ _ he)

theorem reachG_rank_le {g : DepGraph} {rank : String → Nat}
    (hrank : ∀ p d, d ∈ depsOfG g p → rank d < rank p) {a b : String}
    (h : ReachG g a b) : rank b ≤ rank a := by
  induction h with
  | refl => exact Nat.le_refl _
  | step hr he ih => exact Nat.le_trans (Nat.le_of_lt (hrank _ _ he)) ih

theorem not_mem_keys_of_lookup_none {β : Type} {l : List (String × β)} {x : String}
    (h : List.lookup x l = none) : x ∉ l.map Prod.fst := by
  intro hx
  obtain ⟨b, hb⟩ := lookup_isSome_keys hx
  rw [h] at hb
  exact Option.noConfusion hb

theorem mem_keysG_graphAddKey_inv {g : DepGraph} {p q : String}
    (h : q ∈ keysG (graphAddKey g p)) : q ∈ keysG g ∨ q = p := by
  unfold graphAddKey at h
  split at h
  · exact Or.inl h
  · simp only [keysG, List.map_append] at h
    rcases List.mem_append.mp h with h | h
    · exact Or.inl h
    · simp at h
      exact Or.inr h

/-- The expansion preserves freedom from duplicate keys and duplicate
dependency entries. -/
theorem bfsRec_nodup (pkgs : Packages) (fs : String) (fuel : Nat) :
    ∀ (package : String) (path : List String) (st : BuildState),
    (keysG st.graph).Nodup → (∀ e ∈ st.graph, e.2.Nodup) →
    (keysG (bfsRec pkgs fs fuel package path st).graph).Nodup ∧
    (∀ e ∈ (bfsRec pkgs fs fuel package path st).graph, e.2.Nodup) := by
  induction fuel with
  | zero => exact fun package path st h1 h2 => ⟨h1, h2⟩
  | succ fuel ih =>
    intro package path st h1 h2
    rw [bfsRec]
    split
    · rw [(recordCycle_state _ _ _).1]
      exact ⟨h1, h2⟩
    · split
      · exact ⟨h1, h2⟩
      · rcases hdeps : getPackageDependencies pkgs package with herr | directDeps
        · exact ⟨h1, h2⟩
        · simp only []
          have hg1k : (keysG (graphAddKey st.graph package)).Nodup := by
            unfold graphAddKey
            split
            · exact h1
            next hlk =>
              rcases hl : List.lookup package st.graph with _ | ds
              · simp only [keysG, List.map_append]
                rw [List.nodup_append]
                refine ⟨h1, by simp, ?_⟩
                intro x hx hx2
                simp at hx2
                rw [hx2] at hx
                exact not_mem_keys_of_lookup_none hl hx
              · rw [hl] at hlk
                simp at hlk
          have hg1d : ∀ e ∈ graphAddKey st.graph package, e.2.Nodup := by
            intro e he
            rcases mem_graphAddKey he with he | he
            · exact h2 e he
            · rw [he]
              exact List.nodup_nil
          have hg2k : (keysG (graphUpdate (graphAddKey st.graph package) package
              (directDeps.filter (fun x => !shouldFilterPackage fs x)))).Nodup := by
            rw [keysG_graphUpdate]
            exact hg1k
          have hg2d : ∀ e ∈ graphUpdate (graphAddKey st.graph package) package
              (directDeps.filter (fun x => !shouldFilterPackage fs x)), e.2.Nodup := by
            intro e he
            rcases mem_graphUpdate he with ⟨e0, he0, hfst, hsnd⟩
            rcases hsnd with h3 | h3
            · rw [h3]
              exact hg1d e0 he0
            · rw [h3]
              exact unionList_nodup _ (hg1d e0 he0)
          have haux : ∀ (ds : List String) (s : BuildState),
              (keysG s.graph).Nodup → (∀ e ∈ s.graph, e.2.Nodup) →
              (keysG ((ds.foldl
                (fun s d2 =>
                  if d2 ∈ s.visited then s
                  else bfsRec pkgs fs fuel d2 (insertOnce package path)
                    { s with visited := insertOnce d2 s.visited }) s)).graph).Nodup ∧
              (∀ e ∈ ((ds.foldl
                (fun s d2 =>
                  if d2 ∈ s.visited then s
                  else bfsRec pkgs fs fuel d2 (insertOnce package path)
                    { s with visited := insertOnce d2 s.visited }) s)).graph,
                e.2.Nodup) := by
            intro ds
            induction ds with
            | nil => exact fun s hs1 hs2 => ⟨hs1, hs2⟩
            | cons d2 ds ihds =>
              intro s hs1 hs2
              rw [List.foldl_cons]
              by_cases hdv : d2 ∈ s.visited
              · rw [if_pos hdv]
                exact ihds s hs1 hs2
              · rw [if_neg hdv]
                have hrec := ih d2 (insertOnce package path)
                  { s with visited := insertOnce d2 s.visited } hs1 hs2
                exact ihds _ hrec.1 hrec.2
          exact haux _ _ hg2k hg2d

/-- Every key of the expanded graph is reachable from the build root along
recorded edges, provided that is true of the incoming state and the
package being expanded is itself reachable. -/
theorem bfsRec_keys_reach (pkgs : Packages) (fs : String) (fuel : Nat)
    (root2 : String) :
    ∀ (package : String) (path : List String) (st : BuildState),
    (∀ p ∈ keysG st.graph, ReachG st.graph root2 p) →
    ReachG st.graph root2 package →
    ∀ p ∈ keysG (bfsRec pkgs fs fuel package path st).graph,
      ReachG (bfsRec pkgs fs fuel package path st).graph root2 p := by
  induction fuel with
  | zero => exact fun package path st hkeys hpkg => hkeys
  | succ fuel ih =>
    intro package path st hkeys hpkg
    rw [bfsRec]
    split
    · rw [(recordCycle_state _ _ _).1]
      exact hkeys
    · split
      · exact hkeys
      · rcases hdeps : getPackageDependencies pkgs package with herr | directDeps
        · exact hkeys
        · simp only []
          have hmono2 : ∀ q d2, d2 ∈ depsOfG st.graph q →
              d2 ∈ depsOfG (graphUpdate (graphAddKey st.graph package) package
                (directDeps.filter (fun x => !shouldFilterPackage fs x))) q :=
            fun q d2 hqd => mem_depsOfG_graphUpdate_old (mem_depsOfG_graphAddKey hqd)
          have hkeys2 : ∀ p ∈ keysG (graphUpdate (graphAddKey st.graph package)
              package (directDeps.filter (fun x => !shouldFilterPackage fs x))),
              ReachG (graphUpdate (graphAddKey st.graph package) package
                (directDeps.filter (fun x => !shouldFilterPackage fs x))) root2 p := by
            intro p hp
            rw [keysG_graphUpdate] at hp
            rcases mem_keysG_graphAddKey_inv hp with hp | hp
            · exact reachG_mono hmono2 (hkeys p hp)
            · rw [hp]
              exact reachG_mono hmono2 hpkg
          have hpkg2 : ReachG (graphUpdate (graphAddKey st.graph package) package
              (directDeps.filter (fun x => !shouldFilterPackage fs x))) root2 package :=
            reachG_mono hmono2 hpkg
          have hdeps_in : ∀ d2 ∈ directDeps.filter (fun x => !shouldFilterPackage fs x),
              d2 ∈ depsOfG (graphUpdate (graphAddKey st.graph package) package
                (directDeps.filter (fun x => !shouldFilterPackage fs x))) package :=
            fun d2 hd2 => mem_depsOfG_graphUpdate_new
              (mem_keysG_graphAddKey_self st.graph package) hd2
          have haux : ∀ (ds : List String) (s : BuildState),
              (∀ p ∈ keysG s.graph, ReachG s.graph root2 p) →
              ReachG s.graph root2 package →
              (∀ d2 ∈ ds, d2 ∈ depsOfG s.graph package) →
              ∀ p ∈ keysG ((ds.foldl
                (fun s d2 =>
                  if d2 ∈ s.visited then s
                  else bfsRec pkgs fs fuel d2 (insertOnce package path)
                    { s with visited := insertOnce d2 s.visited }) s)).graph,
                ReachG ((ds.foldl
                  (fun s d2 =>
                    if d2 ∈ s.visited then s
                    else bfsRec pkgs fs fuel d2 (insertOnce package path)
                      { s with visited := insertOnce d2 s.visited }) s)).graph root2 p := by
            intro ds
            induction ds with
            | nil => exact fun s hk hp hd => hk
            | cons d2 ds ihds =>
              intro s hk hp hd
              rw [List.foldl_cons]
              by_cases hdv : d2 ∈ s.visited
              · rw [if_pos hdv]
                exact ihds s hk hp (fun x hx => hd x (List.mem_cons_of_mem d2 hx))
              · rw [if_neg hdv]
                have hreach_d2 : ReachG s.graph root2 d2 :=
                  ReachG.step hp (hd d2 (List.mem_cons_self d2 ds))
                have hrec := ih d2 (insertOnce package path)
                  { s with visited := insertOnce d2 s.visited } hk hreach_d2
                have hmono3 := bfsRec_edges_mono pkgs fs fuel d2
                  (insertOnce package path)
                  { s with visited := insertOnce d2 s.visited }
                apply ihds
                · exact hrec
                · exact reachG_mono (fun q d3 h3 => hmono3 q d3 h3) hp
                · exact fun x hx => hmono3 package x
                    (hd x (List.mem_cons_of_mem d2 hx))
          exact haux _ _ hkeys2 hpkg2 hdeps_in

theorem mem_all_of_key {g : DepGraph} {p : String} (h : p ∈ keysG g) :
    p ∈ getAllPackages g :=
  mem_getAllPackages.mpr (Or.inl h)

theorem mem_all_of_dep {g : DepGraph} {p d : String} (h : d ∈ depsOfG g p) :
    d ∈ getAllPackages g := by
  unfold depsOfG at h
  rcases hl : List.lookup p g with _ | ds
  · rw [hl] at h; simp at h
  · rw [hl] at h
    exact mem_getAllPackages.mpr (Or.inr ⟨(p, ds), mem_of_lookup_eq_some hl, h⟩)

theorem keys_of_dep_nonempty {g : DepGraph} {p d : String}
    (h : d ∈ depsOfG g p) : p ∈ keysG g := by
  unfold depsOfG at h
  rcases hl : List.lookup p g with _ | ds
  · rw [hl] at h; simp at h
  · exact mem_keys_of_lookup_eq_some hl

theorem lookup_eq_of_mem_nodup {β : Type} {l : List (String × β)}
    (hnd : (l.map Prod.fst).Nodup) {x : String} {v : β} (h : (x, v) ∈ l) :
    List.lookup x l = some v := by
  induction l with
  | nil => simp at h
  | cons e es ih =>
    simp only [List.map_cons, List.nodup_cons] at hnd
    rcases List.mem_cons.mp h with h | h
    · rw [← h, List.lookup]
      simp
    · have hxe : x ≠ e.1 := by
        intro hx
        exact hnd.1 (by
          rw [← hx]
          exact List.mem_map.mpr ⟨(x, v), h, rfl⟩)
      rw [List.lookup]
      have : (x == e.1) = false := by simpa using hxe
      rw [this]
      exact ih hnd.2 h

theorem revDegStep_rev_nodup {e : String × List String}
    {rd : (String → List String) × (String → Int)} {dep : String}
    (h : ∀ c, (rd.1 c).Nodup) : ∀ c, ((revDegStep e rd dep).1 c).Nodup := by
  intro c
  unfold revDegStep
  dsimp only
  split
  · exact insertOnce_nodup (h c)
  · exact h c

theorem revDegEntry_rev_nodup {e : String × List String} :
    ∀ {ds : List String} {rd : (String → List String) × (String → Int)},
    (∀ c, (rd.1 c).Nodup) → ∀ c, ((ds.foldl (revDegStep e) rd).1 c).Nodup := by
  intro ds
  induction ds with
  | nil => exact fun h => h
  | cons d ds ih =>
    intro rd h
    rw [List.foldl_cons]
    exact ih (revDegStep_rev_nodup h)

theorem revDegInit_rev_nodup (g : DepGraph) : ∀ c, ((revDegInit g).1 c).Nodup := by
  unfold revDegInit
  suffices haux : ∀ (entries : DepGraph)
      (rd : (String → List String) × (String → Int)),
      (∀ c, (rd.1 c).Nodup) → ∀ c, ((entries.foldl revDegEntry rd).1 c).Nodup by
    exact haux g _ (fun c => List.nodup_nil)
  intro entries
  induction entries with
  | nil => exact fun rd h => h
  | cons e es ih =>
    intro rd h
    rw [List.foldl_cons]
    exact ih _ (revDegEntry_rev_nodup h)

theorem revDegEntry_rev_mem_iff {e : String × List String} {c x : String} :
    ∀ {ds : List String} {rd : (String → List String) × (String → Int)},
    x ∈ (ds.foldl (revDegStep e) rd).1 c ↔ x ∈ rd.1 c ∨ (x = e.1 ∧ c ∈ ds) := by
  intro ds
  induction ds with
  | nil => simp
  | cons d ds ih =>
    intro rd
    rw [List.foldl_cons, ih]
    unfold revDegStep
    dsimp only
    by_cases hc : c = d
    · rw [if_pos hc, mem_insertOnce]
      subst hc
      simp only [List.mem_cons]
      tauto
    · rw [if_neg hc]
      have : (c ∈ d :: ds) ↔ c ∈ ds := by
        simp only [List.mem_cons]
        constructor
        · rintro (rfl | h)
          · exact absurd rfl hc
          · exact h
        · exact fun h => Or.inr h
      rw [this]

theorem revDegInit_rev_mem_iff {g : DepGraph} (hknd : (keysG g).Nodup)
    {c x : String} :
    x ∈ (revDegInit g).1 c ↔ x ∈ keysG g ∧ c ∈ depsOfG g x := by
  have hbase : ∀ (entries : DepGraph)
      (rd : (String → List String) × (String → Int)),
      x ∈ (entries.foldl revDegEntry rd).1 c ↔
        x ∈ rd.1 c ∨ ∃ e ∈ entries, x = e.1 ∧ c ∈ e.2 := by
    intro entries
    induction entries with
    | nil => simp
    | cons e es ih =>
      intro rd
      rw [List.foldl_cons, ih]
      show (x ∈ (e.2.foldl (revDegStep e) rd).1 c ∨ _) ↔ _
      rw [revDegEntry_rev_mem_iff]
      constructor
      · rintro ((h | h) | ⟨e2, he2, hx, hc⟩)
        · exact Or.inl h
        · exact Or.inr ⟨e, List.mem_cons_self e es, h⟩
        · exact Or.inr ⟨e2, List.mem_cons_of_mem e he2, hx, hc⟩
      · rintro (h | ⟨e2, he2, hx, hc⟩)
        · exact Or.inl (Or.inl h)
        · rcases List.mem_cons.mp he2 with rfl | he2
          · exact Or.inl (Or.inr ⟨hx, hc⟩)
          · exact Or.inr ⟨e2, he2, hx, hc⟩
  unfold revDegInit
  rw [hbase g (fun _ => [], fun _ => 0)]
  simp only [List.not_mem_nil, false_or]
  constructor
  · rintro ⟨e, he, rfl, hc⟩
    refine ⟨List.mem_map.mpr ⟨e, he, rfl⟩, ?_⟩
    have hl : List.lookup e.1 g = some e.2 :=
      lookup_eq_of_mem_nodup (by simpa [keysG] using hknd) (by simpa using he)
    unfold depsOfG
    rw [hl]
    exact hc
  · rintro ⟨hk, hc⟩
    obtain ⟨ds, hds⟩ := lookup_isSome_keys (by simpa [keysG] using hk)
    unfold depsOfG at hc
    rw [hds] at hc
    exact ⟨(x, ds), mem_of_lookup_eq_some hds, rfl, by simpa using hc⟩

theorem countP_pointwise {all : List String} (hnd : all.Nodup) {x : String}
    (hx : x ∈ all) (p q : String → Bool) (hagree : ∀ y, y ≠ x → q y = p y) :
    all.countP q + (if p x then 1 else 0) =
      all.countP p + (if q x then 1 else 0) := by
  induction all with
  | nil => simp at hx
  | cons a as ih =>
    rw [List.nodup_cons] at hnd
    rw [List.countP_cons, List.countP_cons]
    by_cases hax : a = x
    · subst hax
      have hcongr : as.countP q = as.countP p := by
        apply List.countP_congr
        intro y hy
        rw [hagree y (fun hyx => hnd.1 (hyx ▸ hy))]
      rw [hcongr]
      by_cases hp : p a <;> by_cases hq : q a <;> simp [hp, hq] <;> omega
    · have hx2 : x ∈ as := by
        rcases List.mem_cons.mp hx with h | h
        · exact absurd h.symm hax
        · exact h
      have hqa : q a = p a := hagree a hax
      rw [hqa]
      have := ih hnd.2 hx2
      omega

theorem kahnFold_cons_skip {processed ds acc : List String} {deg : String → Int}
    {d : String} (h : d ∈ processed) :
    kahnFold processed (d :: ds) deg acc = kahnFold processed ds deg acc := by
  simp only [kahnFold]
  rw [if_pos h]

theorem kahnFold_cons_push {processed ds acc : List String} {deg : String → Int}
    {d : String} (h : d ∉ processed) (hz : deg d - 1 = 0) :
    kahnFold processed (d :: ds) deg acc =
      kahnFold processed ds (fun x => if x = d then deg x - 1 else deg x)
        (acc ++ [d]) := by
  simp only [kahnFold]
  rw [if_neg h, if_pos (by simp [hz])]

theorem kahnFold_cons_nopush {processed ds acc : List String} {deg : String → Int}
    {d : String} (h : d ∉ processed) (hz : deg d - 1 ≠ 0) :
    kahnFold processed (d :: ds) deg acc =
      kahnFold processed ds (fun x => if x = d then deg x - 1 else deg x) acc := by
  simp only [kahnFold]
  rw [if_neg h, if_neg (by simp [hz])]

theorem kahnFold_deg {processed : List String} :
    ∀ {ds : List String}, ds.Nodup → ∀ (deg : String → Int) (x : String),
    (kahnFold processed ds deg []).1 x =
      if x ∈ ds ∧ x ∉ processed then deg x - 1 else deg x := by
  intro ds
  induction ds with
  | nil =>
    intro _ deg x
    simp [kahnFold]
  | cons d ds ih =>
    intro hnd deg x
    have hnd2 := List.nodup_cons.mp hnd
    have hmm : ¬ x = d → ((x ∈ d :: ds) ↔ x ∈ ds) := by
      intro hx
      simp only [List.mem_cons]
      exact ⟨fun h => h.resolve_left hx, fun h => Or.inr h⟩
    by_cases hd : d ∈ processed
    · rw [kahnFold_cons_skip hd, ih hnd2.2]
      by_cases hx : x = d
      · subst hx
        rw [if_neg (fun hc => hc.2 hd), if_neg (fun hc => hc.2 hd)]
      · simp only [hmm hx]
    · by_cases hz : deg d - 1 = 0
      · have hfst : (kahnFold processed ds
            (fun x => if x = d then deg x - 1 else deg x) ([] ++ [d])).1 =
            (kahnFold processed ds
              (fun x => if x = d then deg x - 1 else deg x) []).1 := by
          rw [kahnFold_acc]
        rw [kahnFold_cons_push hd hz, hfst, ih hnd2.2]
        by_cases hx : x = d
        · subst hx
          simp [hd, hnd2.1]
        · simp only [hmm hx]
          split
          · simp [hx]
          · simp [hx]
      · rw [kahnFold_cons_nopush hd hz, ih hnd2.2]
        by_cases hx : x = d
        · subst hx
          simp [hd, hnd2.1]
        · simp only [hmm hx]
          split
          · simp [hx]
          · simp [hx]

theorem kahnFold_app_eq {processed : List String} :
    ∀ {ds : List String}, ds.Nodup → ∀ (deg : String → Int),
    (kahnFold processed ds deg []).2 =
      ds.filter (fun d => decide (d ∉ processed) && (deg d - 1 == 0)) := by
  intro ds
  induction ds with
  | nil =>
    intro _ deg
    simp [kahnFold]
  | cons d ds ih =>
    intro hnd deg
    have hnd2 := List.nodup_cons.mp hnd
    have hfcongr : ∀ deg2 : String → Int, (∀ y ∈ ds, deg2 y = deg y) →
        ds.filter (fun e => decide (e ∉ processed) && (deg2 e - 1 == 0)) =
        ds.filter (fun e => decide (e ∉ processed) && (deg e - 1 == 0)) := by
      intro deg2 hagree
      apply List.filter_congr
      intro y hy
      rw [hagree y hy]
    by_cases hd : d ∈ processed
    · rw [kahnFold_cons_skip hd, ih hnd2.2]
      rw [List.filter_cons]
      have hcond : (decide (d ∉ processed) && (deg d - 1 == 0)) = false := by
        simp [hd]
      rw [hcond]
      simp
    · by_cases hz : deg d - 1 = 0
      · have hsnd : (kahnFold processed ds
            (fun x => if x = d then deg x - 1 else deg x) ([] ++ [d])).2 =
            [] ++ [d] ++ (kahnFold processed ds
              (fun x => if x = d then deg x - 1 else deg x) []).2 := by
          rw [kahnFold_acc]
        rw [kahnFold_cons_push hd hz, hsnd, ih hnd2.2]
        rw [List.filter_cons]
        have hcond : (decide (d ∉ processed) && (deg d - 1 == 0)) = true := by
          simp [hd, hz]
        rw [hcond]
        rw [hfcongr _ (fun y hy => by
          show (if y = d then deg y - 1 else deg y) = deg y
          rw [if_neg (fun hyd => hnd2.1 (by rw [← hyd]; exact hy))])]
        simp
      · rw [kahnFold_cons_nopush hd hz, ih hnd2.2]
        rw [List.filter_cons]
        have hbeq : (deg d - 1 == 0) = false := by
          cases hb : (deg d - 1 == 0) with
          | true => exact absurd (by simpa using hb) hz
          | false => rfl
        have hcond : (decide (d ∉ processed) && (deg d - 1 == 0)) = false := by
          rw [hbeq]
          simp
        rw [hcond]
        rw [hfcongr _ (fun y hy => by
          show (if y = d then deg y - 1 else deg y) = deg y
          rw [if_neg (fun hyd => hnd2.1 (by rw [← hyd]; exact hy))])]
        simp

theorem kahnFold_balance (all : List String) (hallnd : all.Nodup)
    {processed : List String} :
    ∀ {ds : List String}, ds.Nodup → (∀ x ∈ ds, x ∈ all) →
    ∀ (deg : String → Int),
    (kahnFold processed ds deg []).2.length +
      all.countP (fun x => decide (0 < (kahnFold processed ds deg []).1 x)) =
      all.countP (fun x => decide (0 < deg x)) := by
  intro ds
  induction ds with
  | nil =>
    intro _ _ deg
    simp [kahnFold]
  | cons d ds ih =>
    intro hnd hsub deg
    have hnd2 := List.nodup_cons.mp hnd
    have hsub2 : ∀ x ∈ ds, x ∈ all := fun x hx => hsub x (List.mem_cons_of_mem d hx)
    have hdall : d ∈ all := hsub d (List.mem_cons_self d ds)
    by_cases hd : d ∈ processed
    · rw [kahnFold_cons_skip hd]
      exact ih hnd2.2 hsub2 deg
    · by_cases hz : deg d - 1 = 0
      · have hfst : (kahnFold processed ds
            (fun x => if x = d then deg x - 1 else deg x) ([] ++ [d])).1 =
            (kahnFold processed ds
              (fun x => if x = d then deg x - 1 else deg x) []).1 := by
          rw [kahnFold_acc]
        have hsnd : (kahnFold processed ds
            (fun x => if x = d then deg x - 1 else deg x) ([] ++ [d])).2 =
            [] ++ [d] ++ (kahnFold processed ds
              (fun x => if x = d then deg x - 1 else deg x) []).2 := by
          rw [kahnFold_acc]
        rw [kahnFold_cons_push hd hz, hfst, hsnd]
        simp only [List.nil_append, List.length_cons]
        have hih := ih hnd2.2 hsub2 (fun x => if x = d then deg x - 1 else deg x)
        have hpoint := countP_pointwise hallnd hdall
          (fun x => decide (0 < deg x))
          (fun x => decide (0 < (if x = d then deg x - 1 else deg x)))
          (fun y hy => by simp [hy])
        have hpd : (decide (0 < deg d)) = true := by
          simp
          omega
        have hqd2 : (decide (0 < (if d = d then deg d - 1 else deg d))) = false := by
          simp only [if_pos rfl]
          simp
          omega
        dsimp only at hpoint
        rw [hpd, hqd2] at hpoint
        simp at hpoint
        simp only [List.length_append, List.length_cons, List.length_nil]
        omega
      · rw [kahnFold_cons_nopush hd hz]
        have hih := ih hnd2.2 hsub2 (fun x => if x = d then deg x - 1 else deg x)
        have hpoint := countP_pointwise hallnd hdall
          (fun x => decide (0 < deg x))
          (fun x => decide (0 < (if x = d then deg x - 1 else deg x)))
          (fun y hy => by simp [hy])
        have hsame : (decide (0 < (if d = d then deg d - 1 else deg d))) =
            (decide (0 < deg d)) := by
          simp only [if_pos rfl]
          by_cases hpos : 0 < deg d - 1
          · have hp2 : 0 < deg d := by omega
            simp [hpos, hp2]
          · have hp2 : ¬ 0 < deg d := by omega
            simp [hpos, hp2]
        dsimp only at hpoint
        rw [hsame] at hpoint
        have hcnt : all.countP
            (fun x => decide (0 < (if x = d then deg x - 1 else deg x))) =
            all.countP (fun x => decide (0 < deg x)) := by omega
        rw [hih, hcnt]

theorem filter_snoc_count {c : String} (processed : List String) (hc : c ∉ processed) :
    ∀ {l : List String}, l.Nodup →
    (l.filter (fun d => decide (d ∉ processed ++ [c]))).length +
      (if c ∈ l then 1 else 0) =
      (l.filter (fun d => decide (d ∉ processed))).length := by
  intro l
  induction l with
  | nil => intro _; simp
  | cons a as ih =>
    intro hnd
    have hnd2 := List.nodup_cons.mp hnd
    rw [List.filter_cons, List.filter_cons]
    by_cases hac : a = c
    · subst hac
      have h1 : (decide (a ∉ processed ++ [a])) = false := by simp
      have h2 : (decide (a ∉ processed)) = true := by simpa using hc
      rw [h1, h2]
      have hca : (if a ∈ a :: as then 1 else 0) = 1 := by simp
      rw [hca]
      have := ih hnd2.2
      have hcas : (if a ∈ as then 1 else 0) = 0 := by simp [hnd2.1]
      rw [hcas] at this
      simp at this ⊢
      omega
    · have hmm : (a ∉ processed ++ [c]) ↔ (a ∉ processed) := by
        simp [hac]
      have hca : (if c ∈ a :: as then 1 else 0) = (if c ∈ as then 1 else 0) := by
        by_cases hcs : c ∈ as
        · simp [hcs]
        · have : c ∉ a :: as := by
            intro h
            rcases List.mem_cons.mp h with h | h
            · exact hac h.symm
            · exact hcs h
          simp [this, hcs]
      rw [hca]
      have hih := ih hnd2.2
      by_cases hap : a ∈ processed
      · have h1 : (decide (a ∉ processed ++ [c])) = false := by
          simp [hmm]
          intro h
          exact absurd hap h
        have h2 : (decide (a ∉ processed)) = false := by simp [hap]
        rw [h1, h2]
        simp at hih ⊢
        omega
      · have h1 : (decide (a ∉ processed ++ [c])) = true := by
          simp [hac, hap]
        have h2 : (decide (a ∉ processed)) = true := by simp [hap]
        rw [h1, h2]
        simp at hih ⊢
        omega

theorem prefixClosed_snoc {res : List String} {c : String}
    (deps : String → List String)
    (hP : ∀ l1 p l2, res = l1 ++ p :: l2 → ∀ d ∈ deps p, d ∈ l1)
    (hc : ∀ d ∈ deps c, d ∈ res) :
    ∀ l1 p l2, res ++ [c] = l1 ++ p :: l2 → ∀ d ∈ deps p, d ∈ l1 := by
  intro l1 p l2 heq d hd
  rcases List.append_eq_append_iff.mp heq with ⟨a2, ha1, ha2⟩ | ⟨c2, hc1, hc2⟩
  · cases a2 with
    | nil =>
      simp only [List.nil_append] at ha2
      have hpc : p = c := (List.cons.injEq _ _ _ _ ▸ ha2.symm :
        p = c ∧ l2 = ([] : List String)).1
      rw [List.append_nil] at ha1
      rw [ha1]
      rw [hpc] at hd
      exact hc d hd
    | cons x xs =>
      rw [List.cons_append] at ha2
      have := (List.cons.injEq _ _ _ _ ▸ ha2 : c = x ∧ ([] : List String) = xs ++ p :: l2)
      exact absurd this.2.symm (by simp)
  · cases c2 with
    | nil =>
      simp only [List.nil_append] at hc2
      have hpc : p = c := (List.cons.injEq _ _ _ _ ▸ hc2 : p = c ∧ l2 = []).1
      rw [List.append_nil] at hc1
      rw [← hc1]
      rw [hpc] at hd
      exact hc d hd
    | cons x xs =>
      rw [List.cons_append] at hc2
      have hx := (List.cons.injEq _ _ _ _ ▸ hc2 : p = x ∧ l2 = xs ++ [c])
      rw [hx.1] at hd
      exact hP l1 x xs hc1 d hd

theorem filter_eq_append_cons {q : String → Bool} :
    ∀ {l l1 l2 : List String} {p : String}, l.filter q = l1 ++ p :: l2 →
      ∃ a1 a2, l = a1 ++ p :: a2 ∧ a1.filter q = l1 := by
  intro l
  induction l with
  | nil =>
    intro l1 l2 p h
    exact absurd h.symm (by simp)
  | cons a as ih =>
    intro l1 l2 p h
    rw [List.filter_cons] at h
    by_cases hqa : q a = true
    · rw [if_pos hqa] at h
      cases l1 with
      | nil =>
        simp only [List.nil_append] at h
        have hinj := (List.cons.injEq _ _ _ _ ▸ h : a = p ∧ as.filter q = l2)
        exact ⟨[], as, by rw [List.nil_append, ← hinj.1], rfl⟩
      | cons b l1b =>
        rw [List.cons_append] at h
        have hinj := (List.cons.injEq _ _ _ _ ▸ h : a = b ∧ as.filter q = l1b ++ p :: l2)
        obtain ⟨a1, a2, has, hfa⟩ := ih hinj.2
        refine ⟨a :: a1, a2, by rw [List.cons_append, ← has], ?_⟩
        rw [List.filter_cons, if_pos hqa, hfa, hinj.1]
    · rw [if_neg hqa] at h
      obtain ⟨a1, a2, has, hfa⟩ := ih h
      refine ⟨a :: a1, a2, by rw [List.cons_append, ← has], ?_⟩
      rw [List.filter_cons, if_neg hqa, hfa]

/-- Master invariant of the Kahn loop on a duplicate-free graph: with the
usual queue/count invariants holding and enough fuel (one unit per
remaining queue entry plus one per still-positive count), the loop ends
with its queue drained, its result closed under dependencies (every
dependency of an appended package precedes it), its processed set equal to
its result, and its counts still tracking the unprocessed dependencies, no
unprocessed node having count zero. -/
theorem kahnLoop_master (g : DepGraph)
    (hknd : (keysG g).Nodup)
    (hdnd : ∀ p, (depsOfG g p).Nodup) :
    ∀ (fuel : Nat) (queue result processed : List String) (deg : String → Int),
    (∀ x ∈ queue, x ∈ getAllPackages g) →
    (∀ x, x ∈ processed ↔ x ∈ result) →
    (∀ n, n ∉ processed →
      deg n = (((depsOfG g n).filter (fun d => decide (d ∉ processed))).length : Int)) →
    (∀ n ∈ getAllPackages g, n ∉ processed → deg n = 0 → n ∈ queue) →
    (∀ x ∈ queue, x ∈ processed ∨ deg x = 0) →
    (∀ l1 p l2, result = l1 ++ p :: l2 → ∀ d ∈ depsOfG g p, d ∈ l1) →
    (queue.length +
      (getAllPackages g).countP (fun x => decide (0 < deg x)) ≤ fuel) →
    (∀ x, x ∈ (kahnLoop (revDegInit g).1 fuel queue result processed deg).2.1 ↔
      x ∈ (kahnLoop (revDegInit g).1 fuel queue result processed deg).1) ∧
    (∀ l1 p l2,
      (kahnLoop (revDegInit g).1 fuel queue result processed deg).1 = l1 ++ p :: l2 →
      ∀ d ∈ depsOfG g p, d ∈ l1) ∧
    (∀ n ∈ getAllPackages g,
      n ∉ (kahnLoop (revDegInit g).1 fuel queue result processed deg).2.1 →
      (kahnLoop (revDegInit g).1 fuel queue result processed deg).2.2 n ≠ 0) ∧
    (∀ n, n ∉ (kahnLoop (revDegInit g).1 fuel queue result processed deg).2.1 →
      (kahnLoop (revDegInit g).1 fuel queue result processed deg).2.2 n =
        (((depsOfG g n).filter (fun d => decide (d ∉
          (kahnLoop (revDegInit g).1 fuel queue result processed deg).2.1))).length :
          Int)) := by
  intro fuel
  induction fuel with
  | zero =>
    intro queue result processed deg hq hpr hdeg hqinv hqdeg hpc hfuel
    have hqe : queue = [] := by
      cases queue with
      | nil => rfl
      | cons c qq => simp at hfuel
    subst hqe
    refine ⟨hpr, hpc, ?_, hdeg⟩
    intro n hn hnp h0
    exact absurd (hqinv n hn hnp h0) (List.not_mem_nil n)
  | succ fuel ih =>
    intro queue result processed deg hq hpr hdeg hqinv hqdeg hpc hfuel
    cases queue with
    | nil =>
      refine ⟨hpr, hpc, ?_, hdeg⟩
      intro n hn hnp h0
      exact absurd (hqinv n hn hnp h0) (List.not_mem_nil n)
    | cons c q =>
      rw [kahnLoop]
      by_cases hcp : c ∈ processed
      · rw [if_pos hcp]
        apply ih q result processed deg
        · exact fun x hx => hq x (List.mem_cons_of_mem c hx)
        · exact hpr
        · exact hdeg
        · intro n hn hnp h0
          rcases List.mem_cons.mp (hqinv n hn hnp h0) with rfl | hni
          · exact absurd hcp hnp
          · exact hni
        · exact fun x hx => hqdeg x (List.mem_cons_of_mem c hx)
        · exact hpc
        · simp only [List.length_cons] at hfuel
          omega
      · rw [if_neg hcp]
        have hallnd := getAllPackages_nodup g
        have hcall : c ∈ getAllPackages g := hq c (List.mem_cons_self c q)
        have hcdeg0 : deg c = 0 := (hqdeg c (List.mem_cons_self c q)).resolve_left hcp
        have hcfilter : ((depsOfG g c).filter
            (fun d => decide (d ∉ processed))).length = 0 := by
          have hdc := hdeg c hcp
          rw [hcdeg0] at hdc
          exact_mod_cast hdc.symm
        have hcdeps : ∀ d ∈ depsOfG g c, d ∈ processed := by
          intro d hd
          by_contra hdp
          have hmemf : d ∈ (depsOfG g c).filter (fun d => decide (d ∉ processed)) :=
            List.mem_filter.mpr ⟨hd, by simpa using hdp⟩
          rw [List.length_eq_zero.mp hcfilter] at hmemf
          exact absurd hmemf (List.not_mem_nil d)
        have hdsnd : ((revDegInit g).1 c).Nodup := revDegInit_rev_nodup g c
        have hdsiff : ∀ x, x ∈ (revDegInit g).1 c ↔
            x ∈ keysG g ∧ c ∈ depsOfG g x := fun x => revDegInit_rev_mem_iff hknd
        have hdssub : ∀ x ∈ (revDegInit g).1 c, x ∈ getAllPackages g :=
          fun x hx => mem_all_of_key ((hdsiff x).mp hx).1
        have hproc2 : insertOnce c processed = processed ++ [c] :=
          insertOnce_of_not_mem hcp
        have happ := @kahnFold_app_eq (insertOnce c processed) _ hdsnd deg
        have hdeg2 := @kahnFold_deg (insertOnce c processed) _ hdsnd deg
        have hbal := @kahnFold_balance (getAllPackages g) hallnd
          (insertOnce c processed) _ hdsnd hdssub deg
        have hnotin2 : ∀ n, n ∉ insertOnce c processed ↔ (n ≠ c ∧ n ∉ processed) := by
          intro n
          rw [hproc2]
          simp only [List.mem_append, List.mem_singleton]
          constructor
          · intro h
            exact ⟨fun hc2 => h (Or.inr hc2), fun hp => h (Or.inl hp)⟩
          · rintro ⟨h1, h2⟩ (h | h)
            · exact h2 h
            · exact h1 h
        apply ih
        · -- queue membership
          intro x hx
          rcases List.mem_append.mp hx with hx | hx
          · exact hq x (List.mem_cons_of_mem c hx)
          · rw [happ] at hx
            exact hdssub x (List.mem_filter.mp hx).1
        · -- processed iff result
          intro x
          rw [mem_insertOnce]
          simp only [List.mem_append, List.mem_singleton]
          rw [hpr x]
          tauto
        · -- deg invariant
          intro n hn2
          rw [hdeg2 n]
          have hn2b := (hnotin2 n).mp hn2
          by_cases hin : n ∈ (revDegInit g).1 c
          · rw [if_pos ⟨hin, hn2⟩]
            have hcd : c ∈ depsOfG g n := ((hdsiff n).mp hin).2
            have hcount := @filter_snoc_count c processed hcp _ (hdnd n)
            have hite : (if c ∈ depsOfG g n then 1 else 0) = 1 := by simp [hcd]
            rw [hite] at hcount
            have hdn := hdeg n hn2b.2
            rw [hdn]
            rw [hproc2]
            have h1 : (0 : Int) <
                (((depsOfG g n).filter (fun d => decide (d ∉ processed))).length : Int) := by
              have : c ∈ (depsOfG g n).filter (fun d => decide (d ∉ processed)) :=
                List.mem_filter.mpr ⟨hcd, by simpa using hcp⟩
              have := List.length_pos.mpr (List.ne_nil_of_mem this)
              exact_mod_cast this
            omega
          · rw [if_neg (fun hcon => hin hcon.1)]
            have hcd : c ∉ depsOfG g n := by
              intro hcd
              exact hin ((hdsiff n).mpr ⟨keys_of_dep_nonempty hcd, hcd⟩)
            have hcount := @filter_snoc_count c processed hcp _ (hdnd n)
            have hite : (if c ∈ depsOfG g n then 1 else 0) = 0 := by simp [hcd]
            rw [hite] at hcount
            have hdn := hdeg n hn2b.2
            rw [hdn, hproc2]
            omega
        · -- queue invariant
          intro n hn hn2 h0
          rw [hdeg2 n] at h0
          have hn2b := (hnotin2 n).mp hn2
          by_cases hin : n ∈ (revDegInit g).1 c
          · rw [if_pos ⟨hin, hn2⟩] at h0
            apply List.mem_append.mpr
            right
            rw [happ]
            exact List.mem_filter.mpr ⟨hin, by
              simp only [Bool.and_eq_true, decide_eq_true_eq]
              exact ⟨hn2, by simpa using h0⟩⟩
          · rw [if_neg (fun hcon => hin hcon.1)] at h0
            rcases List.mem_cons.mp (hqinv n hn hn2b.2 h0) with rfl | hni
            · exact absurd rfl hn2b.1
            · exact List.mem_append.mpr (Or.inl hni)
        · -- queue members processed or zero
          intro x hx
          rcases List.mem_append.mp hx with hx | hx
          · rcases hqdeg x (List.mem_cons_of_mem c hx) with hxp | hx0
            · exact Or.inl (mem_of_mem_insertOnce_base hxp)
            · by_cases hxc : x = c
              · exact Or.inl (hxc ▸ self_mem_insertOnce)
              · by_cases hxp2 : x ∈ processed
                · exact Or.inl (mem_of_mem_insertOnce_base hxp2)
                · right
                  rw [hdeg2 x]
                  have hx2 : x ∉ insertOnce c processed :=
                    (hnotin2 x).mpr ⟨hxc, hxp2⟩
                  by_cases hin : x ∈ (revDegInit g).1 c
                  · exfalso
                    have hcd : c ∈ depsOfG g x := ((hdsiff x).mp hin).2
                    have hdx := hdeg x hxp2
                    have hpos : (0 : Int) <
                        (((depsOfG g x).filter
                          (fun d => decide (d ∉ processed))).length : Int) := by
                      have hmf : c ∈ (depsOfG g x).filter
                          (fun d => decide (d ∉ processed)) :=
                        List.mem_filter.mpr ⟨hcd, by simpa using hcp⟩
                      have := List.length_pos.mpr (List.ne_nil_of_mem hmf)
                      exact_mod_cast this
                    rw [hdx] at hx0
                    omega
                  · rw [if_neg (fun hcon => hin hcon.1)]
                    exact hx0
          · right
            rw [happ] at hx
            have hxf := List.mem_filter.mp hx
            have hxc := hxf.2
            simp only [Bool.and_eq_true, decide_eq_true_eq] at hxc
            rw [hdeg2 x, if_pos ⟨hxf.1, hxc.1⟩]
            have := hxc.2
            simpa using this
        · -- prefix closed
          apply prefixClosed_snoc (depsOfG g) hpc
          intro d hd
          exact (hpr d).mp (hcdeps d hd)
        · -- fuel bound
          rw [List.length_append]
          simp only [List.length_cons] at hfuel
          omega

/-- C5: on a built graph admitting a topological rank (the standard
finite-graph reading of acyclicity: some rank function strictly decreases
along every recorded edge), the load order puts every dependency before
every package that records it, and the root is the final element. -/
theorem C5_acyclic_load_order (pkgs : Packages) (fs root : String)
    (rank : String → Nat)
    (hfr : shouldFilterPackage fs root = false)
    (hrank : ∀ p d, d ∈ depsOfG (buildGraphBFS pkgs fs root).graph p →
      rank d < rank p) :
    (∀ l1 p l2,
      getLoadOrder (buildGraphBFS pkgs fs root).graph root = l1 ++ p :: l2 →
      ∀ d ∈ depsOfG (buildGraphBFS pkgs fs root).graph p, d ∈ l1) ∧
    (getLoadOrder (buildGraphBFS pkgs fs root).graph root).getLast? = some root := by
  have hbst : buildGraphBFS pkgs fs root =
      bfsRec pkgs fs (buildFuel pkgs) root [] ⟨[(root, [])], [], []⟩ := by
    unfold buildGraphBFS
    rw [if_neg (by simp [hfr])]
  set g := (buildGraphBFS pkgs fs root).graph with hgdef
  have hrootkey : root ∈ keysG g := by
    rw [hgdef, hbst]
    apply bfsRec_keys_mono
    simp [keysG]
  have hnd0 : (keysG (⟨[(root, [])], [], []⟩ : BuildState).graph).Nodup := by
    simp [keysG]
  have hdnd0 : ∀ e ∈ (⟨[(root, [])], [], []⟩ : BuildState).graph, e.2.Nodup := by
    intro e he
    simp only [List.mem_singleton] at he
    rw [he]
    exact List.nodup_nil
  have hndpair := bfsRec_nodup pkgs fs (buildFuel pkgs) root []
    ⟨[(root, [])], [], []⟩ hnd0 hdnd0
  have hknd : (keysG g).Nodup := by
    rw [hgdef, hbst]
    exact hndpair.1
  have hdnd : ∀ p, (depsOfG g p).Nodup := by
    intro p
    unfold depsOfG
    rcases hl : List.lookup p g with _ | ds
    · simp
    · have hmem : (p, ds) ∈ g := mem_of_lookup_eq_some hl
      rw [hgdef, hbst] at hmem
      simpa using hndpair.2 (p, ds) hmem
  have hreach : ∀ p ∈ keysG g, ReachG g root p := by
    rw [hgdef, hbst]
    apply bfsRec_keys_reach pkgs fs (buildFuel pkgs) root root []
      ⟨[(root, [])], [], []⟩
    · intro p hp
      simp only [keysG, List.map_cons, List.map_nil, List.mem_singleton] at hp
      rw [hp]
      exact ReachG.refl
    · exact ReachG.refl
  have hnoRootDep : ∀ p, root ∉ depsOfG g p := by
    intro p hp
    have hkey : p ∈ keysG g := keys_of_dep_nonempty hp
    have hle : rank p ≤ rank root := reachG_rank_le hrank (hreach p hkey)
    have hlt : rank root < rank p := hrank p root hp
    omega
  -- instantiate the master lemma at the initial Kahn state
  have hdeg0 : ∀ n, n ∉ ([] : List String) →
      (revDegInit g).2 n =
        (((depsOfG g n).filter (fun d => decide (d ∉ ([] : List String)))).length :
          Int) := by
    intro n _
    rw [revDegInit_deg g hknd n]
    have hfe : (depsOfG g n).filter (fun d => decide (d ∉ ([] : List String))) =
        depsOfG g n := by
      apply List.filter_eq_self.mpr
      intro a _
      simp
    rw [hfe]
  have hseedsub : ∀ x ∈ seedOf g, x ∈ getAllPackages g :=
    fun x hx => (List.mem_filter.mp hx).1
  have hqinv0 : ∀ n ∈ getAllPackages g, n ∉ ([] : List String) →
      (revDegInit g).2 n = 0 → n ∈ seedOf g := by
    intro n hn _ h0
    exact List.mem_filter.mpr ⟨hn, by simp [h0]⟩
  have hqdeg0 : ∀ x ∈ seedOf g, x ∈ ([] : List String) ∨ (revDegInit g).2 x = 0 := by
    intro x hx
    right
    have := (List.mem_filter.mp hx).2
    simpa using this
  have hpc0 : ∀ l1 p l2, ([] : List String) = l1 ++ p :: l2 →
      ∀ d ∈ depsOfG g p, d ∈ l1 := by
    intro l1 p l2 h
    exact absurd h.symm (by simp)
  have hfuel0 : (seedOf g).length +
      (getAllPackages g).countP (fun x => decide (0 < (revDegInit g).2 x)) ≤
      2 * (getAllPackages g).length + 1 := by
    have h1 : (seedOf g).length ≤ (getAllPackages g).length :=
      List.length_filter_le _ _
    have h2 : (getAllPackages g).countP (fun x => decide (0 < (revDegInit g).2 x)) ≤
        (getAllPackages g).length := List.countP_le_length _
    omega
  have hmaster := kahnLoop_master g hknd hdnd (2 * (getAllPackages g).length + 1)
    (seedOf g) [] [] (revDegInit g).2 hseedsub (by simp) hdeg0 hqinv0 hqdeg0
    hpc0 hfuel0
  obtain ⟨hprF, hpcF, hzeroF, hdegF⟩ := hmaster
  -- completeness by strong induction on the rank
  have hstrong : ∀ k, ∀ n ∈ getAllPackages g, rank n < k →
      n ∈ (kahnLoop (revDegInit g).1 (2 * (getAllPackages g).length + 1)
        (seedOf g) [] [] (revDegInit g).2).2.1 := by
    intro k
    induction k with
    | zero => intro n hn h; omega
    | succ k ihk =>
      intro n hn hr
      by_contra hnp
      have hz := hzeroF n hn hnp
      have hd := hdegF n hnp
      rcases hfil : (depsOfG g n).filter (fun d => decide (d ∉
          (kahnLoop (revDegInit g).1 (2 * (getAllPackages g).length + 1)
            (seedOf g) [] [] (revDegInit g).2).2.1)) with _ | ⟨d, ds⟩
      · rw [hfil] at hd
        simp at hd
        exact hz hd
      · have hdmem : d ∈ (depsOfG g n).filter (fun d => decide (d ∉
            (kahnLoop (revDegInit g).1 (2 * (getAllPackages g).length + 1)
              (seedOf g) [] [] (revDegInit g).2).2.1)) := by
          rw [hfil]
          exact List.mem_cons_self d ds
        have hdd := List.mem_filter.mp hdmem
        have hrd : rank d < rank n := hrank n d hdd.1
        have hdall : d ∈ getAllPackages g := mem_all_of_dep hdd.1
        have hdin := ihk d hdall (by omega)
        exact absurd hdin (by simpa using hdd.2)
  have hcomp : ∀ n ∈ getAllPackages g,
      n ∈ (kahnLoop (revDegInit g).1 (2 * (getAllPackages g).length + 1)
        (seedOf g) [] [] (revDegInit g).2).1 :=
    fun n hn => (hprF n).mp (hstrong (rank n + 1) n hn (Nat.lt_succ_self _))
  have hrootres : root ∈ (kahnLoop (revDegInit g).1
      (2 * (getAllPackages g).length + 1) (seedOf g) [] [] (revDegInit g).2).1 :=
    hcomp root (mem_all_of_key hrootkey)
  have hbasic := kahnLoop_basic (revDegInit g).1 (getAllPackages g)
    (fun c x hx => mem_all_of_key (revDegInit_rev_mem hx))
    (2 * (getAllPackages g).length + 1) (seedOf g) [] [] (revDegInit g).2
    hseedsub (by simp) List.nodup_nil (by simp)
  obtain ⟨hresmem, hresnd⟩ := hbasic
  -- properties of the fixed-up sequence
  have hA : ∀ l1 p l2,
      ((kahnLoop (revDegInit g).1 (2 * (getAllPackages g).length + 1)
        (seedOf g) [] [] (revDegInit g).2).1.erase root ++ [root]) = l1 ++ p :: l2 →
      ∀ d ∈ depsOfG g p, d ∈ l1 := by
    apply prefixClosed_snoc (depsOfG g)
    · -- the erased result is still dependency-closed
      intro l1 p l2 heq d hd
      rw [List.Nodup.erase_eq_filter hresnd] at heq
      obtain ⟨a1, a2, hres, hfa⟩ := filter_eq_append_cons heq
      have hda1 : d ∈ a1 := hpcF a1 p a2 hres d hd
      have hdne : d ≠ root := by
        intro hdr
        rw [hdr] at hd
        exact hnoRootDep p hd
      rw [← hfa]
      exact List.mem_filter.mpr ⟨hda1, by simpa using hdne⟩
    · -- dependencies of the root are all in the erased result
      intro d hd
      have hdall : d ∈ getAllPackages g := mem_all_of_dep hd
      have hdres := hcomp d hdall
      have hdne : d ≠ root := by
        intro hdr
        rw [hdr] at hd
        exact hnoRootDep root hd
      exact (List.Nodup.mem_erase_iff hresnd).mpr ⟨hdne, hdres⟩
  constructor
  · intro l1 p l2 heq d hd
    have heq2 : (if root ∈ (kahnLoop (revDegInit g).1
          (2 * (getAllPackages g).length + 1) (seedOf g) [] []
          (revDegInit g).2).1 then
        (kahnLoop (revDegInit g).1 (2 * (getAllPackages g).length + 1)
          (seedOf g) [] [] (revDegInit g).2).1.erase root ++ [root]
      else (kahnLoop (revDegInit g).1 (2 * (getAllPackages g).length + 1)
          (seedOf g) [] [] (revDegInit g).2).1 ++ [root]) = l1 ++ p :: l2 := by
      have hopen : getLoadOrder g root = (if root ∈ (kahnLoop (revDegInit g).1
            (2 * (getAllPackages g).length + 1) (seedOf g) [] []
            (revDegInit g).2).1 then
          (kahnLoop (revDegInit g).1 (2 * (getAllPackages g).length + 1)
            (seedOf g) [] [] (revDegInit g).2).1.erase root ++ [root]
        else (kahnLoop (revDegInit g).1 (2 * (getAllPackages g).length + 1)
            (seedOf g) [] [] (revDegInit g).2).1 ++ [root]) := by
        unfold getLoadOrder
        rw [if_pos hrootkey]
      rw [← hopen]
      exact heq
    rw [if_pos hrootres] at heq2
    exact hA l1 p l2 heq2 d hd
  · have hopen : getLoadOrder g root = (if root ∈ (kahnLoop (revDegInit g).1
          (2 * (getAllPackages g).length + 1) (seedOf g) [] []
          (revDegInit g).2).1 then
        (kahnLoop (revDegInit g).1 (2 * (getAllPackages g).length + 1)
          (seedOf g) [] [] (revDegInit g).2).1.erase root ++ [root]
      else (kahnLoop (revDegInit g).1 (2 * (getAllPackages g).length + 1)
          (seedOf g) [] [] (revDegInit g).2).1 ++ [root]) := by
      unfold getLoadOrder
      rw [if_pos hrootkey]
    rw [hopen, if_pos hrootres]
    exact List.getLast?_concat _

/-- Concrete instance of the C5 theorem: catalog with A depending on B,
filter "zz" matching nothing, rank B = 0 < rank A = 1. -/
theorem C5_acyclic_load_order_witness :
    shouldFilterPackage "zz" "A" = false ∧
    (getLoadOrder (buildGraphBFS
        [("A", ⟨["B"], []⟩), ("B", ⟨[], []⟩)] "zz" "A").graph "A").getLast? =
      some "A" := by
  refine ⟨by decide, ?_⟩
  refine (C5_acyclic_load_order [("A", ⟨["B"], []⟩), ("B", ⟨[], []⟩)] "zz" "A"
    (fun s => if s = "A" then 1 else 0) (by decide) ?_).2
  intro p d hd
  have hg : (buildGraphBFS [("A", ⟨["B"], []⟩), ("B", ⟨[], []⟩)] "zz" "A").graph =
      [("A", ["B"]), ("B", [])] := by decide
  rw [hg] at hd
  unfold depsOfG at hd
  rcases hl : List.lookup p [("A", ["B"]), ("B", ([] : List String))] with _ | ds
  · rw [hl] at hd
    simp at hd
  · rw [hl] at hd
    simp only [Option.getD_some] at hd
    have hmem := mem_of_lookup_eq_some hl
    simp only [List.mem_cons, List.mem_singleton, Prod.mk.injEq,
      List.not_mem_nil, or_false] at hmem
    rcases hmem with ⟨hp, hds⟩ | ⟨hp, hds⟩
    · rw [hds] at hd
      simp at hd
      rw [hp, hd]
      decide
    · rw [hds] at hd
      simp at hd
